import Mathlib

/-!
Verification of the skip-list ordered set in `src/skip_list.hpp`.

The C++ class `SkipList<T>` is shallowly embedded as follows.

* The node store (`std::shared_ptr<Node>` graph) is a list `heap` of nodes;
  an address is an index into that list.  A `shared_ptr` field is an
  `Option Nat` (`none` = `nullptr`).  Nodes are allocated by appending to the
  store and are never removed from it: a node erased from the set stays in
  the store, exactly as a `shared_ptr`-owned node stays alive while an
  iterator still observes it.
* Machine integers `size_t` are modelled as `Nat`.  The only arithmetic on
  them is `size_++` and `size_--`; `size_--` is executed only on states in
  which the element was found, and on every state reachable through the
  public interface the invariant `size_ = number of members` (proved below)
  makes the counter positive there, so `size_t` wrap-around is unreachable
  and truncated `Nat` subtraction coincides with it.
* `std::mt19937 rng` together with `dist(rng) < P` is modelled as the stream
  of Bernoulli outcomes the pair produces: a `List Bool`.  An exhausted
  stream behaves as an all-`false` tail.
* Undefined behaviour (dereferencing a null pointer, vector access out of
  bounds) and non-termination of a pointer walk on a malformed store are
  modelled by `Option`: `none` is a crash.  Fuelled loops get fuel
  `heap.length + 1`, which is proved sufficient on well-formed states.
* `throw std::runtime_error` in the iterator is modelled as
  `Except String`.
-/

namespace SkipListModel

set_option linter.unusedSectionVars false

/-- Capabilities of the element type `T` that the C++ template actually
uses: `operator<` (`lt`), `operator==` (`beq`, with `operator!=` the
rewritten negation `!beq`), and the default constructor `T{}` (`dflt`,
used only for the head sentinel's value slot). -/
class SLElem (T : Type) where
  lt : T → T → Bool
  beq : T → T → Bool
  dflt : T

/-- Lawfulness of the element operations assumed by the specification:
`operator<` is a strict linear order and `operator==` agrees with equality.
`int`, `double` on non-NaN values, `std::string` all satisfy this. -/
class LawfulSLElem (T : Type) [SLElem T] : Prop where
  lt_irrefl : ∀ a : T, SLElem.lt a a = false
  lt_trans : ∀ a b c : T, SLElem.lt a b = true → SLElem.lt b c = true → SLElem.lt a c = true
  lt_antisymm : ∀ a b : T, SLElem.lt a b = false → SLElem.lt b a = false → a = b
  beq_iff : ∀ a b : T, SLElem.beq a b = true ↔ a = b

/-- `static constexpr size_t MAX_LEVEL = 32`. -/
def MAX_LEVEL : Nat := 32

/-- `struct Node`: a value and the vector `forward` of `level + 1` links
(`forward.length = height + 1`, entries `none` = `nullptr`). -/
structure Node (T : Type) where
  value : T
  forward : List (Option Nat)
deriving DecidableEq, Repr

/-- The `SkipList` object.  `heap` is the node store (see the file
header), `head` is the `shared_ptr` to the sentinel (`none` models the
null pointer left behind by a move), and `rng` is the Bernoulli-outcome
stream of `dist(rng) < P`. -/
structure SkipList (T : Type) where
  heap : List (Node T)
  head : Option Nat
  current_level : Nat
  size_ : Nat
  rng : List Bool
deriving DecidableEq, Repr

variable {T : Type} [SLElem T]

/-- Read a node from the store: dereference of a (non-null) node pointer.
A dangling address yields the crash marker `none`; on states produced by
the interface every stored address is in range. -/
def readNode (h : List (Node T)) (a : Nat) : Option (Node T) := h[a]?

/-- `a->forward[i]`: dereference plus vector access.  Out-of-range vector
access is undefined behaviour in C++ and yields the crash marker. -/
def readFwd (h : List (Node T)) (a i : Nat) : Option (Option Nat) := do
  let n ← readNode h a
  n.forward[i]?

/-- `size_t random_level()`: `level = 0; while (dist(rng) < P && level <
MAX_LEVEL) level++; return level;`.  Each evaluation of the loop condition
consumes one Bernoulli outcome; the returned pair is the level and the
remaining stream. -/
def random_level : Nat → List Bool → Nat × List Bool
  | level, [] => (level, [])
  | level, b :: rest =>
      if b && decide (level < MAX_LEVEL) then random_level (level + 1) rest
      else (level, rest)

/-- The inner `while (current->forward[i] && current->forward[i]->value <
value) current = current->forward[i];` of `insert`, `erase` and `find`,
with fuel standing in for termination of the raw pointer walk. -/
def advance (h : List (Node T)) (value : T) (i : Nat) : Nat → Nat → Option Nat
  | _, 0 => none
  | cur, fuel + 1 => do
      let link ← readFwd h cur i
      match link with
      | some nxt => do
          let n ← readNode h nxt
          if SLElem.lt n.value value then advance h value i nxt fuel
          else pure cur
      | none => pure cur

/-- The descending search loop of `insert` and `erase`:
`for (int i = current_level; i >= 0; i--) { while (...) ...; update[i] =
current; }`.  Returns the final `current` (after the level-0 walk) and the
filled `update` vector. -/
def searchLoop (h : List (Node T)) (value : T) :
    Nat → Nat → List (Option Nat) → Option (Nat × List (Option Nat))
  | 0, cur, update => do
      let cur2 ← advance h value 0 cur (h.length + 1)
      pure (cur2, update.set 0 (some cur2))
  | i + 1, cur, update => do
      let cur2 ← advance h value (i + 1) cur (h.length + 1)
      searchLoop h value i cur2 (update.set (i + 1) (some cur2))

/-- The descending search loop of `find`, which records no `update`
vector: `for (int i = current_level; i >= 0; i--) { while (...) ...; }`. -/
def descend (h : List (Node T)) (value : T) : Nat → Nat → Option Nat
  | 0, cur => advance h value 0 cur (h.length + 1)
  | i + 1, cur => do
      let cur2 ← advance h value (i + 1) cur (h.length + 1)
      descend h value i cur2

/-- The raise loop of `insert`: `for (size_t i = current_level + 1; i <=
new_level; i++) update[i] = head;`, with `i` starting at `lo` and `k`
iterations remaining. -/
def setHeadLevels (hd : Nat) : List (Option Nat) → Nat → Nat → List (Option Nat)
  | update, _, 0 => update
  | update, i, k + 1 => setHeadLevels hd (update.set i (some hd)) (i + 1) k

/-- The splice loop of `insert`: `for (size_t i = 0; i <= new_level; i++)
{ new_node->forward[i] = update[i]->forward[i]; update[i]->forward[i] =
new_node; }`, with `i` the current index and `k` iterations remaining.
`update[i]` being null, or any access out of range, is a crash. -/
def spliceLoop (update : List (Option Nat)) (newAddr : Nat) :
    List (Node T) → Nat → Nat → Option (List (Node T))
  | h, _, 0 => pure h
  | h, i, k + 1 => do
      let uo ← update[i]?
      let ua ← uo
      let un ← readNode h ua
      let link ← un.forward[i]?
      let nn ← readNode h newAddr
      let h2 := h.set newAddr { nn with forward := nn.forward.set i link }
      let un2 ← readNode h2 ua
      let h3 := h2.set ua { un2 with forward := un2.forward.set i (some newAddr) }
      spliceLoop update newAddr h3 (i + 1) k

/-- The unlink loop of `erase`: `for (size_t i = 0; i <= current_level;
i++) { if (update[i]->forward[i] != current) break;  update[i]->forward[i]
= current->forward[i]; }`.  The `!=` here is `shared_ptr` (address)
comparison. -/
def unlinkLoop (update : List (Option Nat)) (target : Nat) :
    List (Node T) → Nat → Nat → Option (List (Node T))
  | h, _, 0 => pure h
  | h, i, k + 1 => do
      let uo ← update[i]?
      let ua ← uo
      let un ← readNode h ua
      let link ← un.forward[i]?
      if link = some target then do
        let tn ← readNode h target
        let tlink ← tn.forward[i]?
        unlinkLoop update target (h.set ua { un with forward := un.forward.set i tlink }) (i + 1) k
      else pure h

/-- The shrink loop of `erase`: `while (current_level > 0 &&
!head->forward[current_level]) current_level--;`. -/
def shrinkLoop (h : List (Node T)) (hd : Nat) : Nat → Option Nat
  | 0 => pure 0
  | cl + 1 => do
      let link ← readFwd h hd (cl + 1)
      match link with
      | none => shrinkLoop h hd cl
      | some _ => pure (cl + 1)

/-- `SkipList()`: a fresh set whose store holds only the sentinel
`Node(T{}, MAX_LEVEL)`; the seed of the freshly constructed `mt19937` is
abstracted as the Bernoulli stream it will produce. -/
def SkipList.init (seed : List Bool) : SkipList T :=
  { heap := [⟨SLElem.dflt, List.replicate (MAX_LEVEL + 1) none⟩],
    head := some 0, current_level := 0, size_ := 0, rng := seed }

/-- `void insert(const T& value)` (lines 158-187). -/
def SkipList.insert (s : SkipList T) (value : T) : Option (SkipList T) := do
  let update0 : List (Option Nat) := List.replicate (MAX_LEVEL + 1) none
  let hd ← s.head
  let (cur, update) ← searchLoop s.heap value s.current_level hd update0
  let link ← readFwd s.heap cur 0
  let missing ← match link with
    | some a => do
        let n ← readNode s.heap a
        pure (!SLElem.beq n.value value)
    | none => pure true
  if missing then
    let (new_level, rng2) := random_level 0 s.rng
    let update2 :=
      if s.current_level < new_level then
        setHeadLevels hd update (s.current_level + 1) (new_level - s.current_level)
      else update
    let cl2 := if s.current_level < new_level then new_level else s.current_level
    let newAddr := s.heap.length
    let heap2 := s.heap ++ [⟨value, List.replicate (new_level + 1) none⟩]
    let heap3 ← spliceLoop update2 newAddr heap2 0 (new_level + 1)
    pure { s with heap := heap3, current_level := cl2, size_ := s.size_ + 1, rng := rng2 }
  else
    pure s

/-- `void insert(T&& value)` (lines 189-218): identical to the copy
overload except that the value is moved rather than copied into
`make_shared`, which is the identity in a value model. -/
def SkipList.insert_rv (s : SkipList T) (value : T) : Option (SkipList T) := do
  let update0 : List (Option Nat) := List.replicate (MAX_LEVEL + 1) none
  let hd ← s.head
  let (cur, update) ← searchLoop s.heap value s.current_level hd update0
  let link ← readFwd s.heap cur 0
  let missing ← match link with
    | some a => do
        let n ← readNode s.heap a
        pure (!SLElem.beq n.value value)
    | none => pure true
  if missing then
    let (new_level, rng2) := random_level 0 s.rng
    let update2 :=
      if s.current_level < new_level then
        setHeadLevels hd update (s.current_level + 1) (new_level - s.current_level)
      else update
    let cl2 := if s.current_level < new_level then new_level else s.current_level
    let newAddr := s.heap.length
    let heap2 := s.heap ++ [⟨value, List.replicate (new_level + 1) none⟩]
    let heap3 ← spliceLoop update2 newAddr heap2 0 (new_level + 1)
    pure { s with heap := heap3, current_level := cl2, size_ := s.size_ + 1, rng := rng2 }
  else
    pure s

/-- The object state observed if `std::make_shared<Node>` at line 180 of
`insert` throws: the search has run, `random_level()` has consumed the
generator, and the `current_level = new_level` raise (lines 173-178) has
already been committed; the splice and `size_++` have not.  Returns
`some` of that state exactly when execution reaches the allocation. -/
def SkipList.insertAllocFail (s : SkipList T) (value : T) : Option (SkipList T) := do
  let update0 : List (Option Nat) := List.replicate (MAX_LEVEL + 1) none
  let hd ← s.head
  let (cur, _update) ← searchLoop s.heap value s.current_level hd update0
  let link ← readFwd s.heap cur 0
  let missing ← match link with
    | some a => do
        let n ← readNode s.heap a
        pure (!SLElem.beq n.value value)
    | none => pure true
  if missing then
    let (new_level, rng2) := random_level 0 s.rng
    let cl2 := if s.current_level < new_level then new_level else s.current_level
    pure { s with current_level := cl2, rng := rng2 }
  else
    none

/-- `bool erase(const T& value)` (lines 220-248).  On every state
reachable through the interface the successful branch has `size_ ≥ 1`
(proved below), so truncated `Nat` subtraction agrees with `size_t`. -/
def SkipList.erase (s : SkipList T) (value : T) : Option (Bool × SkipList T) := do
  let update0 : List (Option Nat) := List.replicate (MAX_LEVEL + 1) none
  let hd ← s.head
  let (cur, update) ← searchLoop s.heap value s.current_level hd update0
  let link ← readFwd s.heap cur 0
  match link with
  | some a => do
      let n ← readNode s.heap a
      if SLElem.beq n.value value then do
        let heap2 ← unlinkLoop update a s.heap 0 (s.current_level + 1)
        let cl2 ← shrinkLoop heap2 hd s.current_level
        pure (true, { s with heap := heap2, current_level := cl2, size_ := s.size_ - 1 })
      else pure (false, s)
  | none => pure (false, s)

/-- The iterator: a non-owning view of one node (`none` = the end
iterator constructed from `nullptr`). -/
structure Iterator where
  current : Option Nat
deriving DecidableEq, Repr

/-- `Iterator find(const T& value) const` (lines 250-262). -/
def SkipList.find (s : SkipList T) (value : T) : Option Iterator := do
  let hd ← s.head
  let cur ← descend s.heap value s.current_level hd
  let link ← readFwd s.heap cur 0
  match link with
  | some a => do
      let n ← readNode s.heap a
      if SLElem.beq n.value value then pure ⟨some a⟩ else pure ⟨none⟩
  | none => pure ⟨none⟩

/-- `Iterator begin() const`: `Iterator(head->forward[0])`. -/
def SkipList.begin (s : SkipList T) : Option Iterator := do
  let hd ← s.head
  let link ← readFwd s.heap hd 0
  pure ⟨link⟩

/-- `Iterator end() const`: `Iterator()`. -/
def SkipList.endIt (_s : SkipList T) : Iterator := ⟨none⟩

/-- `size_t size() const`. -/
def SkipList.size (s : SkipList T) : Nat := s.size_

/-- `bool empty() const`. -/
def SkipList.emptyb (s : SkipList T) : Bool := decide (s.size_ = 0)

/-- `void clear()`: the head is replaced by a fresh sentinel (a new
allocation in the store) and the counters reset; the generator is kept. -/
def SkipList.clear (s : SkipList T) : SkipList T :=
  { heap := s.heap ++ [⟨SLElem.dflt, List.replicate (MAX_LEVEL + 1) none⟩],
    head := some s.heap.length, current_level := 0, size_ := 0, rng := s.rng }

/-- `SkipList(SkipList&& other)` (lines 125-133): returns (the new
object, the moved-from source).  Moving the `shared_ptr` head leaves the
source's `head` null; `current_level` and `size_` are then zeroed. -/
def SkipList.moveCtor (other : SkipList T) : SkipList T × SkipList T :=
  ({ heap := other.heap, head := other.head, current_level := other.current_level,
     size_ := other.size_, rng := other.rng },
   { heap := other.heap, head := none, current_level := 0, size_ := 0, rng := other.rng })

/-- `operator=(SkipList&& other)` (lines 144-155), in the `this != &other`
case: returns (the assigned-to object, the moved-from source). -/
def SkipList.moveAssign (_dst other : SkipList T) : SkipList T × SkipList T :=
  ({ heap := other.heap, head := other.head, current_level := other.current_level,
     size_ := other.size_, rng := other.rng },
   { heap := other.heap, head := none, current_level := 0, size_ := 0, rng := other.rng })

/-- `reference operator*()` (lines 77-82): throws
`std::runtime_error("Dereferencing null iterator")` on the end iterator,
otherwise yields the node's value. -/
def Iterator.deref (h : List (Node T)) (it : Iterator) : Except String T :=
  match it.current with
  | none => .error "Dereferencing null iterator"
  | some a =>
      match h[a]? with
      | some n => .ok n.value
      | none => .error "dangling node"

/-- `pointer operator->()` (lines 84-89): same guard and message as
`operator*`; the returned pointer's target value is modelled. -/
def Iterator.arrow (h : List (Node T)) (it : Iterator) : Except String T :=
  match it.current with
  | none => .error "Dereferencing null iterator"
  | some a =>
      match h[a]? with
      | some n => .ok n.value
      | none => .error "dangling node"

/-- `Iterator& operator++()` (lines 91-96): `if (current) current =
current->forward[0];`. -/
def Iterator.inc (h : List (Node T)) (it : Iterator) : Option Iterator :=
  match it.current with
  | none => pure it
  | some a => do
      let n ← readNode h a
      let link ← n.forward[0]?
      pure ⟨link⟩

/-- Values produced by walking level-0 links from a start pointer, with
fuel: the body of a range-`for` over `[begin(), end())`. -/
def chainVals (h : List (Node T)) : Option Nat → Nat → Option (List T)
  | none, _ => pure []
  | some _, 0 => none
  | some a, fuel + 1 => do
      let n ← readNode h a
      let link ← n.forward[0]?
      let rest ← chainVals h link fuel
      pure (n.value :: rest)

/-- Full iteration of the set: `begin()` then repeated dereference and
increment until `end()`. -/
def SkipList.toList (s : SkipList T) : Option (List T) := do
  let hd ← s.head
  let link ← readFwd s.heap hd 0
  chainVals s.heap link (s.heap.length + 1)

/-- Building a set by inserting a sequence left to right into a fresh
set. -/
def buildFrom (seed : List Bool) (S : List T) : Option (SkipList T) :=
  S.foldl (fun acc v => acc.bind (fun s => s.insert v)) (pure (SkipList.init seed))

/-- Total view of the node at address `a` (meaningful when `a` is in
range; the default is never read on well-formed states). -/
def nodeAt (h : List (Node T)) (a : Nat) : Node T := (h[a]?).getD ⟨SLElem.dflt, []⟩

/-- Value stored at address `a`. -/
def valAt (h : List (Node T)) (a : Nat) : T := (nodeAt h a).value

/-- Height of the node at `a`: the top level index of its `forward`
vector. -/
def heightAt (h : List (Node T)) (a : Nat) : Nat := (nodeAt h a).forward.length - 1

/-- Total view of `a->forward[i]`. -/
def fwdAt (h : List (Node T)) (a i : Nat) : Option Nat := (nodeAt h a).forward.getD i none

/-- The address is in range and the node has at least its level-0 slot. -/
def nodeOk (h : List (Node T)) (a : Nat) : Prop :=
  a < h.length ∧ 1 ≤ (nodeAt h a).forward.length

/-- The first node of `l` that appears on level `i`. -/
def levSucc (h : List (Node T)) (i : Nat) (l : List Nat) : Option Nat :=
  l.find? (fun b => decide (i ≤ heightAt h b))

/-- Maximum height among the nodes of `l` (0 when `l` is empty). -/
def maxHeight (h : List (Node T)) (l : List Nat) : Nat :=
  (l.map (heightAt h)).foldr max 0

/-- The values stored at the addresses of `l`. -/
def vals (h : List (Node T)) (l : List Nat) : List T := l.map (valAt h)

/-- The member addresses carry strictly ascending values. -/
def sortedAddrs (h : List (Node T)) (l : List Nat) : Prop :=
  l.Pairwise (fun a b => SLElem.lt (valAt h a) (valAt h b) = true)

/-- The forward links of `c` and of every node of the member suffix `r`
are exactly the skip-list links: at each level `i` up to the node's
height, the link points to the first later member on level `i`. -/
def linkedSuffix (h : List (Node T)) : Nat → List Nat → Prop
  | c, [] => ∀ i, i ≤ heightAt h c → fwdAt h c i = none
  | c, b :: r =>
      (∀ i, i ≤ heightAt h c → fwdAt h c i = levSucc h i (b :: r)) ∧ linkedSuffix h b r

/-- Well-formedness of a set state: `hd` is the sentinel's address and
`l` lists the member addresses in level-0 order.  The fields are the
documented invariants: the level-0 traversal visits exactly the members
in strictly ascending value order (`sorted`, `linked`), every level-`i`
link jumps to the next member of height at least `i` (`linked`), `size_`
counts the members, and `current_level` is the maximum member height. -/
structure WF (s : SkipList T) (hd : Nat) (l : List Nat) : Prop where
  head_eq : s.head = some hd
  head_lt : hd < s.heap.length
  head_height : (nodeAt s.heap hd).forward.length = MAX_LEVEL + 1
  mem_ok : ∀ a ∈ l, nodeOk s.heap a ∧ a ≠ hd
  nodup : l.Nodup
  sorted : sortedAddrs s.heap l
  linked : linkedSuffix s.heap hd l
  size_eq : s.size_ = l.length
  level_eq : s.current_level = maxHeight s.heap l
  height_bound : ∀ a ∈ l, heightAt s.heap a ≤ MAX_LEVEL

/-! Basic store lemmas: bridging the crash-style reads used by the
operations with the total spec-side views, and frame lemmas for `set`
and `append` on the store. -/

theorem getElem?_eq_nodeAt {h : List (Node T)} {a : Nat} (ha : a < h.length) :
    h[a]? = some (nodeAt h a) := by
  rw [List.getElem?_eq_getElem ha]
  rw [nodeAt, List.getElem?_eq_getElem ha, Option.getD_some]

theorem readNode_eq {h : List (Node T)} {a : Nat} (ha : a < h.length) :
    readNode h a = some (nodeAt h a) := getElem?_eq_nodeAt ha

theorem readFwd_eq {h : List (Node T)} {a i : Nat} (ha : a < h.length)
    (hi : i < (nodeAt h a).forward.length) :
    readFwd h a i = some (fwdAt h a i) := by
  rw [readFwd, readNode_eq ha]
  show (nodeAt h a).forward[i]? = some (fwdAt h a i)
  rw [List.getElem?_eq_getElem hi, fwdAt, List.getD_eq_getElem?_getD,
    List.getElem?_eq_getElem hi, Option.getD_some]

theorem nodeAt_set_ne {h : List (Node T)} {a b : Nat} {n : Node T} (hab : a ≠ b) :
    nodeAt (h.set a n) b = nodeAt h b := by
  rw [nodeAt, nodeAt, List.getElem?_set_ne hab]

theorem nodeAt_set_self {h : List (Node T)} {a : Nat} {n : Node T} (ha : a < h.length) :
    nodeAt (h.set a n) a = n := by
  rw [nodeAt, List.getElem?_set_self ha, Option.getD_some]

theorem nodeAt_append_lt {h h2 : List (Node T)} {a : Nat} (ha : a < h.length) :
    nodeAt (h ++ h2) a = nodeAt h a := by
  rw [nodeAt, nodeAt, List.getElem?_append, if_pos ha]

theorem nodeAt_concat_self {h : List (Node T)} {n : Node T} :
    nodeAt (h ++ [n]) h.length = n := by
  rw [nodeAt, List.getElem?_concat_length, Option.getD_some]

theorem levSucc_nil {h : List (Node T)} {i : Nat} : levSucc h i ([] : List Nat) = none := rfl

theorem levSucc_cons {h : List (Node T)} {i b : Nat} {r : List Nat} :
    levSucc h i (b :: r) =
      if i ≤ heightAt h b then some b else levSucc h i r := by
  rw [levSucc, List.find?_cons]
  by_cases hb : i ≤ heightAt h b
  · rw [if_pos hb]; simp [hb]
  · rw [if_neg hb]; simp [hb]; rfl

theorem levSucc_append {h : List (Node T)} {i : Nat} {x y : List Nat} :
    levSucc h i (x ++ y) = (levSucc h i x).or (levSucc h i y) := by
  rw [levSucc, levSucc, levSucc, List.find?_append]

theorem levSucc_eq_none {h : List (Node T)} {i : Nat} {l : List Nat} :
    levSucc h i l = none ↔ ∀ b ∈ l, ¬ i ≤ heightAt h b := by
  rw [levSucc, List.find?_eq_none]
  constructor
  · intro hx b hb
    have := hx b hb
    simpa using this
  · intro hx b hb
    simpa using hx b hb

theorem levSucc_mem {h : List (Node T)} {i b : Nat} {l : List Nat}
    (hb : levSucc h i l = some b) : b ∈ l ∧ i ≤ heightAt h b := by
  refine ⟨List.mem_of_find?_eq_some hb, ?_⟩
  have := List.find?_some hb
  simpa using this

theorem levSucc_split {h : List (Node T)} {i b : Nat} {l : List Nat}
    (hb : levSucc h i l = some b) :
    ∃ l0 l1, l = l0 ++ b :: l1 ∧ ∀ x ∈ l0, ¬ i ≤ heightAt h x := by
  induction l with
  | nil => simp [levSucc_nil] at hb
  | cons a r ih =>
    rw [levSucc_cons] at hb
    by_cases ha : i ≤ heightAt h a
    · rw [if_pos ha] at hb
      obtain rfl : a = b := by simpa using hb
      exact ⟨[], r, rfl, by simp⟩
    · rw [if_neg ha] at hb
      obtain ⟨l0, l1, hl, hlow⟩ := ih hb
      refine ⟨a :: l0, l1, by simp [hl], ?_⟩
      intro x hx
      rcases List.mem_cons.mp hx with rfl | hx
      · exact ha
      · exact hlow x hx

theorem linkedSuffix_fwd {h : List (Node T)} {c : Nat} {r : List Nat}
    (hl : linkedSuffix h c r) :
    ∀ i, i ≤ heightAt h c → fwdAt h c i = levSucc h i r := by
  cases r with
  | nil => intro i hi; rw [hl i hi, levSucc_nil]
  | cons b r => exact hl.1

theorem linkedSuffix_drop {h : List (Node T)} {c b : Nat} {l0 l1 : List Nat}
    (hl : linkedSuffix h c (l0 ++ b :: l1)) : linkedSuffix h b l1 := by
  induction l0 generalizing c with
  | nil => exact hl.2
  | cons a r ih => exact ih hl.2

theorem maxHeight_nil {h : List (Node T)} : maxHeight h ([] : List Nat) = 0 := rfl

theorem maxHeight_cons {h : List (Node T)} {a : Nat} {l : List Nat} :
    maxHeight h (a :: l) = max (heightAt h a) (maxHeight h l) := rfl

theorem maxHeight_append {h : List (Node T)} {x y : List Nat} :
    maxHeight h (x ++ y) = max (maxHeight h x) (maxHeight h y) := by
  induction x with
  | nil => simp [maxHeight_nil, maxHeight_cons]
  | cons a r ih =>
    rw [List.cons_append, maxHeight_cons, maxHeight_cons, ih, Nat.max_assoc]

theorem le_maxHeight {h : List (Node T)} {a : Nat} {l : List Nat} (ha : a ∈ l) :
    heightAt h a ≤ maxHeight h l := by
  induction l with
  | nil => simp at ha
  | cons b r ih =>
    rw [maxHeight_cons]
    rcases List.mem_cons.mp ha with rfl | ha
    · exact Nat.le_max_left _ _
    · exact Nat.le_trans (ih ha) (Nat.le_max_right _ _)

theorem maxHeight_le {h : List (Node T)} {l : List Nat} {n : Nat}
    (hl : ∀ a ∈ l, heightAt h a ≤ n) : maxHeight h l ≤ n := by
  induction l with
  | nil => exact Nat.zero_le n
  | cons b r ih =>
    rw [maxHeight_cons]
    exact Nat.max_le.mpr ⟨hl b (by simp), ih fun a ha => hl a (List.mem_cons_of_mem _ ha)⟩

theorem heightAt_congr {h h2 : List (Node T)} {a : Nat}
    (hn : nodeAt h2 a = nodeAt h a) : heightAt h2 a = heightAt h a := by
  rw [heightAt, heightAt, hn]

theorem levSucc_congr {h h2 : List (Node T)} {i : Nat} {l : List Nat}
    (hh : ∀ b ∈ l, heightAt h2 b = heightAt h b) :
    levSucc h2 i l = levSucc h i l := by
  induction l with
  | nil => rfl
  | cons b r ih =>
    rw [levSucc_cons, levSucc_cons, hh b (by simp),
      ih fun x hx => hh x (List.mem_cons_of_mem _ hx)]

theorem maxHeight_congr {h h2 : List (Node T)} {l : List Nat}
    (hh : ∀ b ∈ l, heightAt h2 b = heightAt h b) :
    maxHeight h2 l = maxHeight h l := by
  induction l with
  | nil => rfl
  | cons b r ih =>
    rw [maxHeight_cons, maxHeight_cons, hh b (by simp),
      ih fun x hx => hh x (List.mem_cons_of_mem _ hx)]

theorem getLast?_append_ne {α : Type _} {l0 l1 : List α} (h1 : l1 ≠ []) :
    (l0 ++ l1).getLast? = l1.getLast? := by
  rw [List.getLast?_append]
  obtain ⟨a, ha⟩ := Option.isSome_iff_exists.mp (List.getLast?_isSome.mpr h1)
  rw [ha]
  rfl

theorem sortedAddrs_cons {h : List (Node T)} {a : Nat} {l : List Nat} :
    sortedAddrs h (a :: l) ↔
      (∀ b ∈ l, SLElem.lt (valAt h a) (valAt h b) = true) ∧ sortedAddrs h l :=
  List.pairwise_cons

theorem sortedAddrs_append {h : List (Node T)} {x y : List Nat} :
    sortedAddrs h (x ++ y) ↔
      sortedAddrs h x ∧ sortedAddrs h y ∧
        ∀ a ∈ x, ∀ b ∈ y, SLElem.lt (valAt h a) (valAt h b) = true :=
  List.pairwise_append

theorem sortedAddrs_congr {h h2 : List (Node T)} {l : List Nat}
    (hv : ∀ b ∈ l, valAt h2 b = valAt h b) :
    sortedAddrs h l ↔ sortedAddrs h2 l := by
  rw [sortedAddrs, sortedAddrs]
  refine List.Pairwise.iff_of_mem ?_
  intro a b ha hb
  rw [hv a ha, hv b hb]

/-- The members whose value is strictly below the search key: the prefix
of the member list the search walks past. -/
def lowPart (h : List (Node T)) (v : T) (l : List Nat) : List Nat :=
  l.takeWhile fun b => SLElem.lt (valAt h b) v

/-- The members whose value is not below the search key. -/
def highPart (h : List (Node T)) (v : T) (l : List Nat) : List Nat :=
  l.dropWhile fun b => SLElem.lt (valAt h b) v

/-- The level-`j` predecessor recorded by the search: the last member
below the key that appears on level `j`, defaulting to the head. -/
def predAt (h : List (Node T)) (v : T) (hd : Nat) (l : List Nat) (j : Nat) : Nat :=
  ((((lowPart h v l).filter fun b => decide (j ≤ heightAt h b)).getLast?).getD hd)

/-! The search walk.  `advance_ok` characterises the inner while loop:
starting from `c` with properly linked suffix `r`, it consumes the prefix
`done` of `r` (all of value strictly below the key), stops on its last
element (of height at least `i`), and leaves a suffix whose first
level-`i` node is not below the key. -/

variable [LawfulSLElem T]

theorem lt_total_of_ne {a b : T} (hne : a ≠ b) :
    SLElem.lt a b = true ∨ SLElem.lt b a = true := by
  by_cases h1 : SLElem.lt a b = true
  · exact Or.inl h1
  · by_cases h2 : SLElem.lt b a = true
    · exact Or.inr h2
    · exact absurd (LawfulSLElem.lt_antisymm a b (by simpa using h1) (by simpa using h2)) hne

theorem stop_all {h : List (Node T)} {v : T} {i : Nat} {r : List Nat}
    (hp : sortedAddrs h r)
    (hstop : ∀ b, levSucc h i r = some b → SLElem.lt (valAt h b) v = false) :
    ∀ b ∈ r, i ≤ heightAt h b → SLElem.lt (valAt h b) v = false := by
  induction r with
  | nil => simp
  | cons a r ih =>
    rw [sortedAddrs_cons] at hp
    intro b hb hib
    by_cases ha : i ≤ heightAt h a
    · have hsa : levSucc h i (a :: r) = some a := by rw [levSucc_cons, if_pos ha]
      have hav := hstop a hsa
      rcases List.mem_cons.mp hb with rfl | hb
      · exact hav
      · by_contra hbv
        have hbv2 : SLElem.lt (valAt h b) v = true := by simpa using hbv
        have hab := hp.1 b hb
        have := LawfulSLElem.lt_trans _ _ _ hab hbv2
        rw [this] at hav
        cases hav
    · rcases List.mem_cons.mp hb with rfl | hb
      · exact absurd hib ha
      · refine ih hp.2 ?_ b hb hib
        intro b2 hb2
        refine hstop b2 ?_
        rw [levSucc_cons, if_neg ha]
        exact hb2

theorem takeWhile_all_append {α : Type _} {p : α → Bool} {x y : List α}
    (hx : ∀ a ∈ x, p a = true) :
    (x ++ y).takeWhile p = x ++ y.takeWhile p := by
  induction x with
  | nil => simp
  | cons a r ih =>
    rw [List.cons_append, List.takeWhile_cons, if_pos (hx a (by simp)),
      ih fun b hb => hx b (List.mem_cons_of_mem _ hb), List.cons_append]

theorem dropWhile_all_append {α : Type _} {p : α → Bool} {x y : List α}
    (hx : ∀ a ∈ x, p a = true) :
    (x ++ y).dropWhile p = y.dropWhile p := by
  induction x with
  | nil => simp
  | cons a r ih =>
    rw [List.cons_append, List.dropWhile_cons, if_pos (hx a (by simp)),
      ih fun b hb => hx b (List.mem_cons_of_mem _ hb)]

theorem filter_getLast {α : Type _} {p : α → Bool} {x : List α} {c : α}
    (hx : x.getLast? = some c) (hc : p c = true) :
    (x.filter p).getLast? = some c := by
  obtain ⟨ys, rfl⟩ := List.getLast?_eq_some_iff.mp hx
  rw [List.filter_append]
  have hfc : List.filter p [c] = [c] := by simp [hc]
  rw [hfc, List.getLast?_concat]

theorem mem_of_getLast {α : Type _} {x : List α} {c : α} (hx : x.getLast? = some c) :
    c ∈ x := by
  obtain ⟨ys, rfl⟩ := List.getLast?_eq_some_iff.mp hx
  simp

theorem levSucc_zero {h : List (Node T)} {r : List Nat} : levSucc h 0 r = r.head? := by
  cases r with
  | nil => rfl
  | cons a t => rw [levSucc_cons, if_pos (Nat.zero_le _)]; rfl

theorem length_le_of_nodup_lt {l : List Nat} {n : Nat} (hn : l.Nodup)
    (hb : ∀ a ∈ l, a < n) : l.length ≤ n := by
  have h1 : l.toFinset ⊆ Finset.range n := by
    intro a ha
    rw [List.mem_toFinset] at ha
    exact Finset.mem_range.mpr (hb a ha)
  have h2 := Finset.card_le_card h1
  rw [List.toFinset_card_of_nodup hn, Finset.card_range] at h2
  exact h2

theorem getD_set_self {α : Type _} {l : List (Option α)} {i : Nat} {x : Option α}
    (hi : i < l.length) : (l.set i x).getD i none = x := by
  rw [List.getD_eq_getElem?_getD, List.getElem?_set_self hi, Option.getD_some]

theorem getD_set_ne {α : Type _} {l : List (Option α)} {i j : Nat} {x : Option α}
    (hij : i ≠ j) : (l.set i x).getD j none = l.getD j none := by
  rw [List.getD_eq_getElem?_getD, List.getElem?_set_ne hij, ← List.getD_eq_getElem?_getD]

theorem advance_ok {h : List (Node T)} (v : T) {i : Nat} :
    ∀ (fuel : Nat) (c : Nat) (r : List Nat),
      r.length < fuel →
      nodeOk h c → i ≤ heightAt h c →
      (∀ b ∈ r, nodeOk h b) →
      sortedAddrs h r →
      linkedSuffix h c r →
      ∃ c2 done r2,
        advance h v i c fuel = some c2 ∧
        r = done ++ r2 ∧
        (∀ b ∈ done, SLElem.lt (valAt h b) v = true) ∧
        ((done = [] ∧ c2 = c) ∨
          (done.getLast? = some c2 ∧ i ≤ heightAt h c2 ∧ nodeOk h c2)) ∧
        linkedSuffix h c2 r2 ∧
        sortedAddrs h r2 ∧
        (∀ b, levSucc h i r2 = some b → SLElem.lt (valAt h b) v = false) := by
  intro fuel
  induction fuel with
  | zero => intro c r hfuel; exact absurd hfuel (Nat.not_lt_zero _)
  | succ fuel ih =>
    intro c r hfuel hc hic hr hp hl
    have hci : i < (nodeAt h c).forward.length := by
      have h1 := hc.2
      rw [heightAt] at hic
      omega
    have hread : readFwd h c i = some (fwdAt h c i) := readFwd_eq hc.1 hci
    have hfwd : fwdAt h c i = levSucc h i r := linkedSuffix_fwd hl i hic
    rcases hs : levSucc h i r with _ | b
    · refine ⟨c, [], r, ?_, by simp, by simp, Or.inl ⟨rfl, rfl⟩, hl, hp, ?_⟩
      · rw [advance, hread, hfwd, hs]; rfl
      · intro b hb; rw [hs] at hb; cases hb
    · obtain ⟨hbmem, hbh⟩ := levSucc_mem hs
      have hbok : nodeOk h b := hr b hbmem
      obtain ⟨l0, l1, hrsplit, hl0⟩ := levSucc_split hs
      have hbn : readNode h b = some (nodeAt h b) := readNode_eq hbok.1
      by_cases hlt : SLElem.lt (nodeAt h b).value v = true
      · -- the loop steps to `b` and continues
        have hl1 : linkedSuffix h b l1 := by rw [hrsplit] at hl; exact linkedSuffix_drop hl
        have hlen1 : l1.length < fuel := by
          rw [hrsplit] at hfuel; rw [List.length_append, List.length_cons] at hfuel; omega
        have hr1 : ∀ x ∈ l1, nodeOk h x := by
          intro x hx
          refine hr x ?_
          rw [hrsplit]
          exact List.mem_append_right _ (List.mem_cons_of_mem _ hx)
        have hpsplit := hp
        rw [hrsplit, sortedAddrs_append] at hpsplit
        have hpb := hpsplit.2.1
        rw [sortedAddrs_cons] at hpb
        obtain ⟨c2, done1, r2, hadv, hsplit1, hdone1, hlast1, hl2, hp2, hstop2⟩ :=
          ih b l1 hlen1 hbok hbh hr1 hpb.2 hl1
        refine ⟨c2, l0 ++ b :: done1, r2, ?_, ?_, ?_, ?_, hl2, hp2, hstop2⟩
        · rw [advance, hread, hfwd, hs]
          show (do
            let n ← readNode h b
            if SLElem.lt n.value v then advance h v i b fuel else pure c) = some c2
          rw [hbn]
          show (if SLElem.lt (nodeAt h b).value v then advance h v i b fuel else pure c) = some c2
          rw [if_pos hlt, hadv]
        · rw [hrsplit, hsplit1]; simp
        · intro x hx
          rcases List.mem_append.mp hx with hx0 | hxb
          · -- value below `b`'s, which is below the key
            have hxb2 : SLElem.lt (valAt h x) (valAt h b) = true :=
              hpsplit.2.2 x hx0 b (by simp)
            exact LawfulSLElem.lt_trans _ _ _ hxb2 hlt
          · rcases List.mem_cons.mp hxb with rfl | hx1
            · exact hlt
            · exact hdone1 x hx1
        · refine Or.inr ?_
          rcases hlast1 with ⟨hd1, rfl⟩ | ⟨hglast, hih, hcok⟩
          · subst hd1
            refine ⟨?_, hbh, hbok⟩
            rw [getLast?_append_ne (by simp)]
            simp
          · refine ⟨?_, hih, hcok⟩
            have hne : done1 ≠ [] := by
              intro hcon
              rw [hcon] at hglast
              cases hglast
            rw [getLast?_append_ne (by simp), ← List.singleton_append,
              getLast?_append_ne hne, hglast]
      · -- next level-`i` node is not below the key: stop at `c`
        refine ⟨c, [], r, ?_, by simp, by simp, Or.inl ⟨rfl, rfl⟩, hl, hp, ?_⟩
        · rw [advance, hread, hfwd, hs]
          show (do
            let n ← readNode h b
            if SLElem.lt n.value v then advance h v i b fuel else pure c) = some c
          rw [hbn]
          show (if SLElem.lt (nodeAt h b).value v then advance h v i b fuel else pure c) = some c
          rw [if_neg hlt]
          rfl
        · intro b2 hb2
          rw [hs] at hb2
          cases hb2
          simpa using hlt

/-- What one level of the descending search establishes: the stop point
`c2` is the level-`i` predecessor of the key, and its level-`i` link
already points at the first level-`i` node of the high part. -/
theorem search_level_core {h : List (Node T)} {v : T} {hd : Nat}
    {l acc done r2 : List Nat} {i c c2 : Nat}
    (hdh : heightAt h hd = MAX_LEVEL)
    (hiM : i ≤ MAX_LEVEL)
    (hsplitl : acc ++ (done ++ r2) = l)
    (haccv : ∀ b ∈ acc, SLElem.lt (valAt h b) v = true)
    (hdonev : ∀ b ∈ done, SLElem.lt (valAt h b) v = true)
    (hcchar : (acc = [] ∧ c = hd) ∨ acc.getLast? = some c)
    (hic : i ≤ heightAt h c)
    (hchar : (done = [] ∧ c2 = c) ∨
      (done.getLast? = some c2 ∧ i ≤ heightAt h c2 ∧ nodeOk h c2))
    (hstopall : ∀ b ∈ r2, i ≤ heightAt h b → SLElem.lt (valAt h b) v = false)
    (hlink2 : linkedSuffix h c2 r2) :
    predAt h v hd l i = c2 ∧
    ((acc ++ done = [] ∧ c2 = hd) ∨ (acc ++ done).getLast? = some c2) ∧
    i ≤ heightAt h c2 ∧
    fwdAt h c2 i = levSucc h i (highPart h v l) ∧
    lowPart h v l = (acc ++ done) ++ r2.takeWhile (fun b => SLElem.lt (valAt h b) v) ∧
    highPart h v l = r2.dropWhile (fun b => SLElem.lt (valAt h b) v) := by
  have hacc2v : ∀ b ∈ acc ++ done, SLElem.lt (valAt h b) v = true := by
    intro b hb
    rcases List.mem_append.mp hb with h1 | h2
    exacts [haccv b h1, hdonev b h2]
  have hlow : lowPart h v l =
      (acc ++ done) ++ r2.takeWhile (fun b => SLElem.lt (valAt h b) v) := by
    rw [lowPart, ← hsplitl, ← List.append_assoc, takeWhile_all_append hacc2v]
  have hhigh : highPart h v l = r2.dropWhile (fun b => SLElem.lt (valAt h b) v) := by
    rw [highPart, ← hsplitl, ← List.append_assoc, dropWhile_all_append hacc2v]
  have htakef : ∀ b ∈ r2.takeWhile (fun b => SLElem.lt (valAt h b) v),
      ¬ (decide (i ≤ heightAt h b)) = true := by
    intro b hb
    have hbv : SLElem.lt (valAt h b) v = true := by simpa using List.mem_takeWhile_imp hb
    have hbr2 : b ∈ r2 := (List.takeWhile_sublist _).subset hb
    intro hcon
    have hih2 : i ≤ heightAt h b := of_decide_eq_true hcon
    rw [hstopall b hbr2 hih2] at hbv
    cases hbv
  have hfilter : (lowPart h v l).filter (fun b => decide (i ≤ heightAt h b)) =
      (acc ++ done).filter (fun b => decide (i ≤ heightAt h b)) := by
    rw [hlow, List.filter_append, List.filter_eq_nil_iff.mpr htakef, List.append_nil]
  have hchar2 : (acc ++ done = [] ∧ c2 = hd) ∨ (acc ++ done).getLast? = some c2 := by
    rcases hchar with ⟨rfl, rfl⟩ | ⟨hdl, hih2, hok⟩
    · rcases hcchar with ⟨rfl, rfl⟩ | hal
      · exact Or.inl ⟨rfl, rfl⟩
      · exact Or.inr (by rw [List.append_nil]; exact hal)
    · refine Or.inr ?_
      have hne : done ≠ [] := by
        intro hcon
        rw [hcon] at hdl
        cases hdl
      rw [getLast?_append_ne hne]
      exact hdl
  have hic2 : i ≤ heightAt h c2 := by
    rcases hchar with ⟨rfl, rfl⟩ | ⟨hdl, hih2, hok⟩
    · exact hic
    · exact hih2
  have hpred : predAt h v hd l i = c2 := by
    rw [predAt, hfilter]
    rcases hchar2 with ⟨he, rfl⟩ | hlast
    · rw [he]
      rfl
    · rw [filter_getLast hlast (decide_eq_true hic2)]
      rfl
  have hfwd : fwdAt h c2 i = levSucc h i (highPart h v l) := by
    rw [linkedSuffix_fwd hlink2 i hic2, hhigh]
    conv_lhs =>
      rw [← List.takeWhile_append_dropWhile (fun b => SLElem.lt (valAt h b) v) r2]
    rw [levSucc_append, levSucc_eq_none.mpr (fun b hb => by
      intro hcon
      exact htakef b hb (decide_eq_true hcon)), Option.none_or]
  exact ⟨hpred, hchar2, hic2, hfwd, hlow, hhigh⟩

theorem getElem?_eq_some_getD {α : Type _} {u : List (Option α)} {i : Nat}
    (hi : i < u.length) : u[i]? = some (u.getD i none) := by
  rw [List.getElem?_eq_getElem hi, List.getD_eq_getElem?_getD,
    List.getElem?_eq_getElem hi, Option.getD_some]

/-- The raise loop writes `head` into slots `lo .. lo + k - 1` and leaves
the rest of the `update` vector alone. -/
theorem setHeadLevels_ok (hd : Nat) :
    ∀ (k lo : Nat) (u : List (Option Nat)),
      (setHeadLevels hd u lo k).length = u.length ∧
      (∀ j, lo ≤ j → j < lo + k → j < u.length →
        (setHeadLevels hd u lo k).getD j none = some hd) ∧
      (∀ j, j < lo ∨ lo + k ≤ j → (setHeadLevels hd u lo k).getD j none = u.getD j none) := by
  intro k
  induction k with
  | zero =>
    intro lo u
    refine ⟨rfl, ?_, fun j _ => rfl⟩
    intro j h1 h2
    omega
  | succ k ih =>
    intro lo u
    obtain ⟨hlen, hin, hout⟩ := ih (lo + 1) (u.set lo (some hd))
    refine ⟨?_, ?_, ?_⟩
    · rw [setHeadLevels, hlen, List.length_set]
    · intro j h1 h2 h3
      rw [setHeadLevels]
      by_cases hj : j = lo
      · subst hj
        rw [hout j (Or.inl (by omega)), getD_set_self h3]
      · exact hin j (by omega) (by omega) (by rw [List.length_set]; omega)
    · intro j hj
      rw [setHeadLevels, hout j (by omega), getD_set_ne (by omega)]

/-- One forward-slot write `a->forward[i] = lnk` on the store. -/
def setFwd (h : List (Node T)) (a i : Nat) (lnk : Option Nat) : List (Node T) :=
  h.set a ⟨(nodeAt h a).value, (nodeAt h a).forward.set i lnk⟩

theorem length_setFwd {h : List (Node T)} {a i : Nat} {lnk : Option Nat} :
    (setFwd h a i lnk).length = h.length := List.length_set _ _ _

theorem nodeAt_setFwd_self {h : List (Node T)} {a i : Nat} {lnk : Option Nat}
    (ha : a < h.length) :
    nodeAt (setFwd h a i lnk) a = ⟨(nodeAt h a).value, (nodeAt h a).forward.set i lnk⟩ :=
  nodeAt_set_self ha

theorem nodeAt_setFwd_ne {h : List (Node T)} {a b i : Nat} {lnk : Option Nat}
    (hb : b ≠ a) : nodeAt (setFwd h a i lnk) b = nodeAt h b :=
  nodeAt_set_ne fun hcon => hb (hcon ▸ rfl)

theorem valAt_setFwd {h : List (Node T)} {a i : Nat} {lnk : Option Nat}
    (ha : a < h.length) : ∀ b, valAt (setFwd h a i lnk) b = valAt h b := by
  intro b
  by_cases hb : b = a
  · subst hb
    rw [valAt, nodeAt_setFwd_self ha, valAt]
  · rw [valAt, nodeAt_setFwd_ne hb, valAt]

theorem flen_setFwd {h : List (Node T)} {a i : Nat} {lnk : Option Nat}
    (ha : a < h.length) :
    ∀ b, (nodeAt (setFwd h a i lnk) b).forward.length = (nodeAt h b).forward.length := by
  intro b
  by_cases hb : b = a
  · subst hb
    rw [nodeAt_setFwd_self ha]
    exact List.length_set _ _ _
  · rw [nodeAt_setFwd_ne hb]

theorem heightAt_setFwd {h : List (Node T)} {a i : Nat} {lnk : Option Nat}
    (ha : a < h.length) : ∀ b, heightAt (setFwd h a i lnk) b = heightAt h b := by
  intro b
  rw [heightAt, heightAt, flen_setFwd ha]

theorem fwdAt_setFwd_self {h : List (Node T)} {a i : Nat} {lnk : Option Nat}
    (ha : a < h.length) (hi : i < (nodeAt h a).forward.length) :
    fwdAt (setFwd h a i lnk) a i = lnk := by
  rw [fwdAt, nodeAt_setFwd_self ha]
  exact getD_set_self hi

theorem fwdAt_setFwd_ne {h : List (Node T)} {a b i j : Nat} {lnk : Option Nat}
    (hne : b ≠ a ∨ j ≠ i) : fwdAt (setFwd h a i lnk) b j = fwdAt h b j := by
  rcases hne with hb | hj
  · rw [fwdAt, nodeAt_setFwd_ne hb, fwdAt]
  · by_cases hb : b = a
    · subst hb
      by_cases ha : b < h.length
      · rw [fwdAt, nodeAt_setFwd_self ha, fwdAt]
        exact getD_set_ne fun hcon => hj hcon.symm
      · rw [setFwd, fwdAt, fwdAt, nodeAt, nodeAt, List.set_eq_of_length_le (by omega)]
    · rw [fwdAt, nodeAt_setFwd_ne hb, fwdAt]

/-- Full characterisation of the splice loop of `insert`: per processed
level `j`, the new node's slot `j` receives the old link of the level-`j`
predecessor `ua j`, whose slot `j` is then pointed at the new node; no
other slot of the store changes, and no value or vector length changes. -/
theorem spliceLoop_ok {u : List (Option Nat)} (newAddr : Nat) (ua : Nat → Nat) :
    ∀ (k i : Nat) (h : List (Node T)),
      u.length = MAX_LEVEL + 1 →
      i + k ≤ MAX_LEVEL + 1 →
      nodeOk h newAddr →
      i + k ≤ heightAt h newAddr + 1 →
      (∀ j, i ≤ j → j < i + k →
        u.getD j none = some (ua j) ∧ nodeOk h (ua j) ∧ ua j ≠ newAddr ∧
          j ≤ heightAt h (ua j)) →
      ∃ h2, spliceLoop u newAddr h i k = some h2 ∧
        h2.length = h.length ∧
        (∀ a, (nodeAt h2 a).value = (nodeAt h a).value) ∧
        (∀ a, (nodeAt h2 a).forward.length = (nodeAt h a).forward.length) ∧
        (∀ j, i ≤ j → j < i + k → fwdAt h2 newAddr j = fwdAt h (ua j) j) ∧
        (∀ j, i ≤ j → j < i + k → fwdAt h2 (ua j) j = some newAddr) ∧
        (∀ a j, (j < i ∨ i + k ≤ j ∨ (a ≠ newAddr ∧ a ≠ ua j)) →
          fwdAt h2 a j = fwdAt h a j) := by
  intro k
  induction k with
  | zero =>
    intro i h hu hk hnew hnewh hja
    refine ⟨h, rfl, rfl, fun a => rfl, fun a => rfl, ?_, ?_, fun a j _ => rfl⟩
    · intro j h1 h2; omega
    · intro j h1 h2; omega
  | succ k ih =>
    intro i h hu hk hnew hnewh hja
    obtain ⟨hgi, hiok, hine, hih⟩ := hja i (Nat.le_refl i) (by omega)
    have hilt : i < u.length := by rw [hu]; omega
    have hifw : i < (nodeAt h (ua i)).forward.length := by
      have := hiok.2
      rw [heightAt] at hih
      omega
    have hinew : i < (nodeAt h newAddr).forward.length := by
      have := hnew.2
      rw [heightAt] at hnewh
      omega
    -- the two writes of iteration `i`
    set hA := setFwd h newAddr i (fwdAt h (ua i) i) with hhA
    set hB := setFwd hA (ua i) i (some newAddr) with hhB
    have hAlen : hA.length = h.length := length_setFwd
    have hBlen : hB.length = h.length := by rw [hhB, length_setFwd, hAlen]
    have hAval : ∀ b, valAt hA b = valAt h b := valAt_setFwd hnew.1
    have hAflen : ∀ b, (nodeAt hA b).forward.length = (nodeAt h b).forward.length :=
      flen_setFwd hnew.1
    have huaA : ua i < hA.length := by rw [hAlen]; exact hiok.1
    have hBval : ∀ b, valAt hB b = valAt h b := by
      intro b
      rw [hhB, valAt_setFwd huaA b]
      exact hAval b
    have hBflen : ∀ b, (nodeAt hB b).forward.length = (nodeAt h b).forward.length := by
      intro b
      rw [hhB, flen_setFwd huaA b]
      exact hAflen b
    have hBheight : ∀ b, heightAt hB b = heightAt h b := by
      intro b
      rw [heightAt, heightAt, hBflen b]
    have hS1 : ∀ a j, j ≠ i → fwdAt hB a j = fwdAt h a j := by
      intro a j hji
      rw [hhB, fwdAt_setFwd_ne (Or.inr hji), hhA, fwdAt_setFwd_ne (Or.inr hji)]
    have hS2 : fwdAt hB newAddr i = fwdAt h (ua i) i := by
      rw [hhB, fwdAt_setFwd_ne (Or.inl (Ne.symm hine)), hhA, fwdAt_setFwd_self hnew.1 hinew]
    have hS3 : fwdAt hB (ua i) i = some newAddr := by
      rw [hhB, fwdAt_setFwd_self huaA]
      rw [hhA, flen_setFwd hnew.1]
      exact hifw
    have hS4 : ∀ a, a ≠ newAddr → a ≠ ua i → fwdAt hB a i = fwdAt h a i := by
      intro a h1 h2
      rw [hhB, fwdAt_setFwd_ne (Or.inl h2), hhA, fwdAt_setFwd_ne (Or.inl h1)]
    -- the loop body reduces to the recursive call on `hB`
    have hstep : spliceLoop u newAddr h i (k + 1) = spliceLoop u newAddr hB (i + 1) k := by
      rw [spliceLoop]
      rw [getElem?_eq_some_getD hilt, hgi]
      show (do
        let un ← readNode h (ua i)
        let link2 ← un.forward[i]?
        let nn ← readNode h newAddr
        let h2 := h.set newAddr { nn with forward := nn.forward.set i link2 }
        let un3 ← readNode h2 (ua i)
        let h3 := h2.set (ua i) { un3 with forward := un3.forward.set i (some newAddr) }
        spliceLoop u newAddr h3 (i + 1) k) = _
      rw [readNode_eq hiok.1]
      show (do
        let link2 ← (nodeAt h (ua i)).forward[i]?
        let nn ← readNode h newAddr
        let h2 := h.set newAddr { nn with forward := nn.forward.set i link2 }
        let un3 ← readNode h2 (ua i)
        let h3 := h2.set (ua i) { un3 with forward := un3.forward.set i (some newAddr) }
        spliceLoop u newAddr h3 (i + 1) k) = _
      rw [getElem?_eq_some_getD hifw]
      show (do
        let nn ← readNode h newAddr
        let h2 := h.set newAddr { nn with forward := nn.forward.set i (fwdAt h (ua i) i) }
        let un3 ← readNode h2 (ua i)
        let h3 := h2.set (ua i) { un3 with forward := un3.forward.set i (some newAddr) }
        spliceLoop u newAddr h3 (i + 1) k) = _
      rw [readNode_eq hnew.1]
      show (do
        let un3 ← readNode hA (ua i)
        let h3 := hA.set (ua i) { un3 with forward := un3.forward.set i (some newAddr) }
        spliceLoop u newAddr h3 (i + 1) k) = _
      rw [readNode_eq huaA]
      rfl
    obtain ⟨h2, hrun, hlen2, hval2, hflen2, hD, hE, hF⟩ :=
      ih (i + 1) hB hu (by omega)
        ⟨by rw [hBlen]; exact hnew.1, by rw [hBflen]; exact hnew.2⟩
        (by rw [hBheight]; omega)
        (by
          intro j h1 h2
          obtain ⟨g1, g2, g3, g4⟩ := hja j (by omega) (by omega)
          exact ⟨g1, ⟨by rw [hBlen]; exact g2.1, by rw [hBflen]; exact g2.2⟩, g3,
            by rw [hBheight]; exact g4⟩)
    refine ⟨h2, ?_, by rw [hlen2, hBlen], ?_, ?_, ?_, ?_, ?_⟩
    · rw [hstep]
      exact hrun
    · intro a
      rw [hval2 a]
      exact hBval a
    · intro a
      rw [hflen2 a, hBflen a]
    · intro j h1 h2
      by_cases hji : j = i
      · subst hji
        rw [hF newAddr j (Or.inl (by omega)), hS2]
      · have hDj := hD j (by omega) (by omega)
        rw [hDj, hS1 (ua j) j hji]
    · intro j h1 h2
      by_cases hji : j = i
      · subst hji
        rw [hF (ua j) j (Or.inl (by omega)), hS3]
      · exact hE j (by omega) (by omega)
    · intro a j hcond
      rcases hcond with h1 | h1 | ⟨h1, h2⟩
      · rw [hF a j (Or.inl (by omega)), hS1 a j (by omega)]
      · rw [hF a j (Or.inr (Or.inl (by omega))), hS1 a j (by omega)]
      · by_cases hji : j = i
        · subst hji
          rw [hF a j (Or.inl (by omega)), hS4 a h1 h2]
        · rw [hF a j (Or.inr (Or.inr ⟨h1, h2⟩)), hS1 a j hji]


theorem getD_replicate_none {α : Type _} : ∀ (n j : Nat),
    (List.replicate n (none : Option α)).getD j none = none := by
  intro n
  induction n with
  | zero => intro j; rfl
  | succ n ih =>
    intro j
    cases j with
    | zero => rfl
    | succ j => exact ih j

theorem dropWhile_head_not {α : Type _} {p : α → Bool} :
    ∀ {l : List α} {b : α}, (l.dropWhile p).head? = some b → p b = false := by
  intro l
  induction l with
  | nil => intro b hb; cases hb
  | cons a t ih =>
    intro b hb
    rw [List.dropWhile_cons] at hb
    by_cases ha : p a = true
    · rw [if_pos ha] at hb
      exact ih hb
    · rw [if_neg ha] at hb
      cases hb
      simpa using ha

theorem random_level_le : ∀ (rng : List Bool) (lv : Nat), lv ≤ MAX_LEVEL →
    (random_level lv rng).1 ≤ MAX_LEVEL := by
  intro rng
  induction rng with
  | nil => intro lv hlv; exact hlv
  | cons b rest ih =>
    intro lv hlv
    rw [random_level]
    by_cases hb : (b && decide (lv < MAX_LEVEL)) = true
    · rw [if_pos hb]
      have hlt : lv < MAX_LEVEL := of_decide_eq_true (Bool.and_elim_right hb)
      exact ih (lv + 1) hlt
    · rw [if_neg hb]
      exact hlv

theorem vals_append {h : List (Node T)} {x y : List Nat} :
    vals h (x ++ y) = vals h x ++ vals h y := List.map_append _ _ _

theorem vals_cons {h : List (Node T)} {a : Nat} {x : List Nat} :
    vals h (a :: x) = valAt h a :: vals h x := rfl

theorem mem_vals {h : List (Node T)} {x : T} {l : List Nat} :
    x ∈ vals h l ↔ ∃ a ∈ l, valAt h a = x := by
  rw [vals, List.mem_map]

/-- Positional elimination for `linkedSuffix`: every node of the chain
has correct links for its own suffix. -/
theorem linkedSuffix_elim {h : List (Node T)} :
    ∀ {r : List Nat} {c : Nat}, linkedSuffix h c r →
      ∀ pre x suf, c :: r = pre ++ x :: suf →
        ∀ i, i ≤ heightAt h x → fwdAt h x i = levSucc h i suf := by
  intro r
  induction r with
  | nil =>
    intro c hl pre x suf hsplit i hi
    cases pre with
    | nil =>
      rw [List.nil_append] at hsplit
      injection hsplit with h1 h2
      subst h1
      subst h2
      rw [hl i hi, levSucc_nil]
    | cons p ps =>
      rw [List.cons_append] at hsplit
      injection hsplit with h1 h2
      exact absurd h2.symm (by simp)
  | cons b r ih =>
    intro c hl pre x suf hsplit i hi
    cases pre with
    | nil =>
      rw [List.nil_append] at hsplit
      injection hsplit with h1 h2
      subst h1
      subst h2
      exact linkedSuffix_fwd hl i hi
    | cons p ps =>
      rw [List.cons_append] at hsplit
      injection hsplit with h1 h2
      exact ih hl.2 ps x suf h2 i hi

/-- Positional introduction for `linkedSuffix`. -/
theorem linkedSuffix_intro {h : List (Node T)} :
    ∀ (r : List Nat) (c : Nat),
      (∀ pre x suf, c :: r = pre ++ x :: suf →
        ∀ i, i ≤ heightAt h x → fwdAt h x i = levSucc h i suf) →
      linkedSuffix h c r := by
  intro r
  induction r with
  | nil =>
    intro c hall
    intro i hi
    have := hall [] c [] rfl i hi
    rw [this, levSucc_nil]
  | cons b r ih =>
    intro c hall
    refine ⟨fun i hi => hall [] c (b :: r) rfl i hi, ?_⟩
    refine ih b ?_
    intro pre x suf hsplit i hi
    exact hall (c :: pre) x suf (by rw [List.cons_append, ← hsplit]) i hi

/-- On a duplicate-free list split as `pre ++ c :: post` with `q c`, the
last `q`-element is `c` exactly when `post` has no `q`-element. -/
theorem filter_getLast_eq_iff {α : Type _} [DecidableEq α] (q : α → Bool)
    {x pre post : List α} {c : α}
    (hx : x = pre ++ c :: post) (hnd : x.Nodup) (hqc : q c = true) :
    (x.filter q).getLast? = some c ↔ post.filter q = [] := by
  subst hx
  rw [List.filter_append, List.filter_cons_of_pos hqc]
  have hcpost : c ∉ post := by
    rw [List.nodup_middle] at hnd
    have hcnot := (List.pairwise_cons.mp hnd).1
    intro hcon
    exact hcnot c (List.mem_append_right _ hcon) rfl
  constructor
  · intro hlast
    cases hpf : post.filter q with
    | nil => rfl
    | cons d ds =>
      rw [hpf] at hlast
      rw [getLast?_append_ne (by simp), ← List.singleton_append,
        getLast?_append_ne (by simp)] at hlast
      have hdc : (d :: ds).getLast? = some c := hlast
      have hmem : c ∈ d :: ds := mem_of_getLast hdc
      have : c ∈ post := (List.filter_sublist _).subset (hpf ▸ hmem)
      exact absurd this hcpost
  · intro hpf
    rw [hpf]
    exact List.getLast?_concat _

/-! Facts following from well-formedness. -/

theorem WF.level_le {s : SkipList T} {hd : Nat} {l : List Nat} (hwf : WF s hd l) :
    s.current_level ≤ MAX_LEVEL := by
  rw [hwf.level_eq]
  exact maxHeight_le hwf.height_bound

theorem WF.height_le_level {s : SkipList T} {hd : Nat} {l : List Nat} (hwf : WF s hd l) :
    ∀ a ∈ l, heightAt s.heap a ≤ s.current_level := by
  intro a ha
  rw [hwf.level_eq]
  exact le_maxHeight ha

theorem WF.len_le {s : SkipList T} {hd : Nat} {l : List Nat} (hwf : WF s hd l) :
    l.length ≤ s.heap.length :=
  length_le_of_nodup_lt hwf.nodup fun a ha => (hwf.mem_ok a ha).1.1

theorem WF.head_ok {s : SkipList T} {hd : Nat} {l : List Nat} (hwf : WF s hd l) :
    nodeOk s.heap hd := ⟨hwf.head_lt, by rw [hwf.head_height]; omega⟩

theorem WF.head_heightAt {s : SkipList T} {hd : Nat} {l : List Nat} (hwf : WF s hd l) :
    heightAt s.heap hd = MAX_LEVEL := by
  rw [heightAt, hwf.head_height]
  omega

theorem WF.low_high {s : SkipList T} {hd : Nat} {l : List Nat} (_hwf : WF s hd l)
    (v : T) : lowPart s.heap v l ++ highPart s.heap v l = l :=
  List.takeWhile_append_dropWhile _ _

theorem predAt_cases (h : List (Node T)) (v : T) (hd : Nat) (l : List Nat) (j : Nat) :
    predAt h v hd l j = hd ∨
    (predAt h v hd l j ∈ lowPart h v l ∧ j ≤ heightAt h (predAt h v hd l j)) := by
  cases hlast : ((lowPart h v l).filter fun b => decide (j ≤ heightAt h b)).getLast? with
  | none =>
    left
    rw [predAt, hlast]
    rfl
  | some c =>
    right
    have hmem := mem_of_getLast hlast
    have hc1 : c ∈ lowPart h v l := (List.filter_sublist _).subset hmem
    have hc2 := List.of_mem_filter hmem
    simp only [decide_eq_true_eq] at hc2
    have hpc : predAt h v hd l j = c := by rw [predAt, hlast]; rfl
    rw [hpc]
    exact ⟨hc1, hc2⟩

theorem predAt_eq_head_of_big {h : List (Node T)} {v : T} {hd : Nat}
    {l : List Nat} {j : Nat} (hj : ∀ b ∈ l, heightAt h b < j) :
    predAt h v hd l j = hd := by
  have hnil : (lowPart h v l).filter (fun b => decide (j ≤ heightAt h b)) = [] := by
    rw [List.filter_eq_nil_iff]
    intro b hb
    have hbl : b ∈ l := (List.takeWhile_sublist _).subset hb
    have := hj b hbl
    simp only [decide_eq_true_eq]
    omega
  rw [predAt, hnil]
  rfl

theorem fwdAt_congr {h h2 : List (Node T)} {a : Nat}
    (hn : nodeAt h2 a = nodeAt h a) : ∀ i, fwdAt h2 a i = fwdAt h a i := by
  intro i
  rw [fwdAt, hn, fwdAt]

theorem valAt_congr {h h2 : List (Node T)} {a : Nat}
    (hn : nodeAt h2 a = nodeAt h a) : valAt h2 a = valAt h a := by
  rw [valAt, hn, valAt]

theorem levSucc_ne_none {h : List (Node T)} {i : Nat} {l : List Nat}
    (hx : ∃ b ∈ l, i ≤ heightAt h b) : ∃ y, levSucc h i l = some y := by
  cases hs : levSucc h i l with
  | some y => exact ⟨y, rfl⟩
  | none =>
    obtain ⟨b, hb, hib⟩ := hx
    exact absurd hib (levSucc_eq_none.mp hs b hb)

theorem low_lt {h : List (Node T)} {v : T} {l : List Nat} :
    ∀ a ∈ lowPart h v l, SLElem.lt (valAt h a) v = true := by
  intro a ha
  rw [lowPart] at ha
  have := List.mem_takeWhile_imp ha
  simpa using this

theorem low_sub {h : List (Node T)} {v : T} {l : List Nat} :
    ∀ a ∈ lowPart h v l, a ∈ l := by
  intro a ha
  rw [lowPart] at ha
  exact (List.takeWhile_sublist _).subset ha

theorem high_sub {h : List (Node T)} {v : T} {l : List Nat} :
    ∀ a ∈ highPart h v l, a ∈ l := by
  intro a ha
  rw [highPart] at ha
  exact (List.dropWhile_sublist _).subset ha

/-- The duplicate test of the operations (`operator==` on the level-0
candidate) detects exactly membership of the value, for a lawful element
type. -/
theorem mem_vals_iff_head_beq {s : SkipList T} {hd : Nat} {l : List Nat}
    (hwf : WF s hd l) (v : T) :
    v ∈ vals s.heap l ↔
      ∃ a, (highPart s.heap v l).head? = some a ∧
        SLElem.beq (valAt s.heap a) v = true := by
  constructor
  · intro hv
    obtain ⟨a, hal, hav⟩ := mem_vals.mp hv
    have halow : a ∉ lowPart s.heap v l := by
      intro hcon
      have := List.mem_takeWhile_imp hcon
      rw [hav, LawfulSLElem.lt_irrefl] at this
      cases this
    have hahigh : a ∈ highPart s.heap v l := by
      have := hwf.low_high v
      rcases List.mem_append.mp (this ▸ hal) with hx | hx
      · exact absurd hx halow
      · exact hx
    cases hh : (highPart s.heap v l).head? with
    | none =>
      rw [List.head?_eq_none_iff] at hh
      rw [hh] at hahigh
      cases hahigh
    | some b =>
      refine ⟨b, rfl, ?_⟩
      obtain ⟨ys, hys⟩ := List.head?_eq_some_iff.mp hh
      by_cases hba : b = a
      · subst hba
        rw [hav]
        exact (LawfulSLElem.beq_iff _ _).mpr rfl
      · have hsortedh : sortedAddrs s.heap (highPart s.heap v l) := by
          have := hwf.sorted
          rw [← hwf.low_high v, sortedAddrs_append] at this
          exact this.2.1
        rw [hys, sortedAddrs_cons] at hsortedh
        have hamem : a ∈ ys := by
          rw [hys] at hahigh
          rcases List.mem_cons.mp hahigh with h1 | h1
          · exact absurd h1.symm hba
          · exact h1
        have hlt : SLElem.lt (valAt s.heap b) (valAt s.heap a) = true :=
          hsortedh.1 a hamem
        have hnb : SLElem.lt (valAt s.heap b) v = false := by
          rw [highPart] at hh
          have := dropWhile_head_not hh
          simpa using this
        rw [hav] at hlt
        rw [hlt] at hnb
        cases hnb
  · rintro ⟨a, ha, hbeq⟩
    have hav : valAt s.heap a = v := (LawfulSLElem.beq_iff _ _).mp hbeq
    have hahigh : a ∈ highPart s.heap v l := by
      obtain ⟨ys, hys⟩ := List.head?_eq_some_iff.mp ha
      rw [hys]
      exact List.mem_cons_self _ _
    have hal : a ∈ l := (List.dropWhile_sublist _).subset hahigh
    exact mem_vals.mpr ⟨a, hal, hav⟩

/-- Full characterisation of the unlink loop of `erase`: for each level
`j` up to the target's height `m`, the level-`j` predecessor `ua j` is
rewired from the target to the target's own level-`j` link; the loop
breaks at level `m + 1`; nothing else changes — in particular the target
node itself is untouched. -/
theorem unlinkLoop_ok {u : List (Option Nat)} (target m : Nat) (ua : Nat → Nat) :
    ∀ (k i : Nat) (h : List (Node T)),
      u.length = MAX_LEVEL + 1 →
      i + k ≤ MAX_LEVEL + 1 →
      nodeOk h target →
      heightAt h target = m →
      (∀ j, i ≤ j → j < i + k →
        u.getD j none = some (ua j) ∧ nodeOk h (ua j) ∧ ua j ≠ target ∧
          j ≤ heightAt h (ua j) ∧
          (j ≤ m → fwdAt h (ua j) j = some target) ∧
          (m < j → fwdAt h (ua j) j ≠ some target)) →
      ∃ h2, unlinkLoop u target h i k = some h2 ∧
        h2.length = h.length ∧
        (∀ a, (nodeAt h2 a).value = (nodeAt h a).value) ∧
        (∀ a, (nodeAt h2 a).forward.length = (nodeAt h a).forward.length) ∧
        (∀ j, i ≤ j → j < i + k → j ≤ m → fwdAt h2 (ua j) j = fwdAt h target j) ∧
        (∀ a j, (j < i ∨ i + k ≤ j ∨ m < j ∨ a ≠ ua j) → fwdAt h2 a j = fwdAt h a j) ∧
        (∀ a, (∀ j, i ≤ j → j < i + k → a ≠ ua j) → nodeAt h2 a = nodeAt h a) := by
  intro k
  induction k with
  | zero =>
    intro i h hu hk htok hth hja
    refine ⟨h, rfl, rfl, fun a => rfl, fun a => rfl, ?_, fun a j _ => rfl, fun a _ => rfl⟩
    intro j h1 h2
    omega
  | succ k ih =>
    intro i h hu hk htok hth hja
    obtain ⟨hgi, hiok, hine, hih, hilow, hihigh⟩ := hja i (Nat.le_refl i) (by omega)
    have hilt : i < u.length := by rw [hu]; omega
    have hifw : i < (nodeAt h (ua i)).forward.length := by
      have := hiok.2
      rw [heightAt] at hih
      omega
    by_cases him : i ≤ m
    · -- the predecessor still points at the target: rewire and continue
      have hlinki : fwdAt h (ua i) i = some target := hilow him
      have hitfw : i < (nodeAt h target).forward.length := by
        have := htok.2
        rw [heightAt] at hth
        omega
      set hB := setFwd h (ua i) i (fwdAt h target i) with hhB
      have hBlen : hB.length = h.length := length_setFwd
      have hBval : ∀ b, valAt hB b = valAt h b := valAt_setFwd hiok.1
      have hBflen : ∀ b, (nodeAt hB b).forward.length = (nodeAt h b).forward.length :=
        flen_setFwd hiok.1
      have hBheight : ∀ b, heightAt hB b = heightAt h b := heightAt_setFwd hiok.1
      have hS1 : ∀ a j, j ≠ i → fwdAt hB a j = fwdAt h a j := by
        intro a j hji
        rw [hhB, fwdAt_setFwd_ne (Or.inr hji)]
      have hS2 : fwdAt hB (ua i) i = fwdAt h target i := by
        rw [hhB, fwdAt_setFwd_self hiok.1 hifw]
      have hS3 : ∀ a, a ≠ ua i → fwdAt hB a i = fwdAt h a i := by
        intro a h1
        rw [hhB, fwdAt_setFwd_ne (Or.inl h1)]
      have hSt : ∀ a, a ≠ ua i → nodeAt hB a = nodeAt h a := by
        intro a h1
        rw [hhB, nodeAt_setFwd_ne h1]
      have hstep : unlinkLoop u target h i (k + 1) = unlinkLoop u target hB (i + 1) k := by
        rw [unlinkLoop]
        rw [getElem?_eq_some_getD hilt, hgi]
        show (do
          let un ← readNode h (ua i)
          let link2 ← un.forward[i]?
          if link2 = some target then do
            let tn ← readNode h target
            let tlink ← tn.forward[i]?
            unlinkLoop u target (h.set (ua i)
              { un with forward := un.forward.set i tlink }) (i + 1) k
          else pure h) = _
        rw [readNode_eq hiok.1]
        show (do
          let link2 ← (nodeAt h (ua i)).forward[i]?
          if link2 = some target then do
            let tn ← readNode h target
            let tlink ← tn.forward[i]?
            unlinkLoop u target (h.set (ua i)
              { nodeAt h (ua i) with
                forward := (nodeAt h (ua i)).forward.set i tlink }) (i + 1) k
          else pure h) = _
        rw [getElem?_eq_some_getD hifw]
        have hlinki2 : (nodeAt h (ua i)).forward.getD i none = some target := hlinki
        show (if (nodeAt h (ua i)).forward.getD i none = some target then do
            let tn ← readNode h target
            let tlink ← tn.forward[i]?
            unlinkLoop u target (h.set (ua i)
              { nodeAt h (ua i) with
                forward := (nodeAt h (ua i)).forward.set i tlink }) (i + 1) k
          else pure h) = unlinkLoop u target hB (i + 1) k
        rw [if_pos hlinki2, readNode_eq htok.1]
        show (do
          let tlink ← (nodeAt h target).forward[i]?
          unlinkLoop u target (h.set (ua i)
            { nodeAt h (ua i) with
              forward := (nodeAt h (ua i)).forward.set i tlink }) (i + 1) k) = _
        rw [getElem?_eq_some_getD hitfw]
        rfl
      obtain ⟨h2, hrun, hlen2, hval2, hflen2, hW, hF, hN⟩ :=
        ih (i + 1) hB hu (by omega)
          ⟨by rw [hBlen]; exact htok.1, by rw [hBflen]; exact htok.2⟩
          (by rw [hBheight]; exact hth)
          (by
            intro j h1 h2
            obtain ⟨g1, g2, g3, g4, g5, g6⟩ := hja j (by omega) (by omega)
            refine ⟨g1, ⟨by rw [hBlen]; exact g2.1, by rw [hBflen]; exact g2.2⟩, g3,
              by rw [hBheight]; exact g4, ?_, ?_⟩
            · intro hjm
              rw [hS1 (ua j) j (by omega)]
              exact g5 hjm
            · intro hjm
              rw [hS1 (ua j) j (by omega)]
              exact g6 hjm)
      refine ⟨h2, ?_, by rw [hlen2, hBlen], ?_, ?_, ?_, ?_, ?_⟩
      · rw [hstep]
        exact hrun
      · intro a
        rw [hval2 a]
        exact hBval a
      · intro a
        rw [hflen2 a]
        exact hBflen a
      · intro j h1 h2 h3
        by_cases hji : j = i
        · subst hji
          rw [hF (ua j) j (Or.inl (by omega)), hS2]
        · have hWj := hW j (by omega) (by omega) h3
          rw [hWj, hS1 target j hji]
      · intro a j hcond
        rcases hcond with h1 | h1 | h1 | h1
        · rw [hF a j (Or.inl (by omega)), hS1 a j (by omega)]
        · rw [hF a j (Or.inr (Or.inl (by omega))), hS1 a j (by omega)]
        · rw [hF a j (Or.inr (Or.inr (Or.inl h1))), hS1 a j (by omega)]
        · by_cases hji : j = i
          · subst hji
            rw [hF a j (Or.inl (by omega)), hS3 a h1]
          · rw [hF a j (Or.inr (Or.inr (Or.inr h1))), hS1 a j hji]
      · intro a ha
        rw [hN a (fun j h1 h2 => ha j (by omega) (by omega)),
          hSt a (ha i (Nat.le_refl i) (by omega))]
    · -- the predecessor no longer points at the target: break
      have hlinki : fwdAt h (ua i) i ≠ some target := hihigh (by omega)
      refine ⟨h, ?_, rfl, fun a => rfl, fun a => rfl, ?_, fun a j _ => rfl, fun a _ => rfl⟩
      · rw [unlinkLoop]
        rw [getElem?_eq_some_getD hilt, hgi]
        show (do
          let un ← readNode h (ua i)
          let link2 ← un.forward[i]?
          if link2 = some target then do
            let tn ← readNode h target
            let tlink ← tn.forward[i]?
            unlinkLoop u target (h.set (ua i)
              { un with forward := un.forward.set i tlink }) (i + 1) k
          else pure h) = some h
        rw [readNode_eq hiok.1]
        show (do
          let link2 ← (nodeAt h (ua i)).forward[i]?
          if link2 = some target then do
            let tn ← readNode h target
            let tlink ← tn.forward[i]?
            unlinkLoop u target (h.set (ua i)
              { nodeAt h (ua i) with
                forward := (nodeAt h (ua i)).forward.set i tlink }) (i + 1) k
          else pure h) = some h
        rw [getElem?_eq_some_getD hifw]
        have hlinki2 : ¬ (nodeAt h (ua i)).forward.getD i none = some target := hlinki
        show (if (nodeAt h (ua i)).forward.getD i none = some target then do
            let tn ← readNode h target
            let tlink ← tn.forward[i]?
            unlinkLoop u target (h.set (ua i)
              { nodeAt h (ua i) with
                forward := (nodeAt h (ua i)).forward.set i tlink }) (i + 1) k
          else pure h) = some h
        rw [if_neg hlinki2]
        rfl
      · intro j h1 h2 h3
        omega

/-- The shrink loop of `erase` recomputes `current_level` as the maximum
height among the remaining members. -/
theorem shrinkLoop_ok {h : List (Node T)} {hd : Nat} {l2 : List Nat}
    (hdok : nodeOk h hd) (hdh : heightAt h hd = MAX_LEVEL)
    (hfwd : ∀ j, j ≤ MAX_LEVEL → fwdAt h hd j = levSucc h j l2) :
    ∀ cl, cl ≤ MAX_LEVEL → (∀ a ∈ l2, heightAt h a ≤ cl) →
      shrinkLoop h hd cl = some (maxHeight h l2) := by
  intro cl
  induction cl with
  | zero =>
    intro h1 h2
    have hz : maxHeight h l2 = 0 := Nat.le_zero.mp (maxHeight_le h2)
    rw [shrinkLoop, hz]
    rfl
  | succ cl ih =>
    intro h1 h2
    have hclfw : cl + 1 < (nodeAt h hd).forward.length := by
      have hx := hdok.2
      have hy := hdh
      rw [heightAt] at hy
      have hML : MAX_LEVEL = 32 := rfl
      rw [hML] at hy h1
      omega
    rw [shrinkLoop, readFwd_eq hdok.1 hclfw, hfwd (cl + 1) h1]
    cases hs : levSucc h (cl + 1) l2 with
    | none =>
      have hall := levSucc_eq_none.mp hs
      show shrinkLoop h hd cl = some (maxHeight h l2)
      exact ih (by omega) fun a ha => by
        have := hall a ha
        omega
    | some b =>
      obtain ⟨hbm, hbh⟩ := levSucc_mem hs
      have hmx : maxHeight h l2 = cl + 1 :=
        Nat.le_antisymm (maxHeight_le h2) (Nat.le_trans hbh (le_maxHeight hbm))
      rw [hmx]
      rfl

/-- `find`'s descending loop computes the same stop point as the
recording loop of `insert` and `erase`. -/
theorem descend_eq {h : List (Node T)} {v : T} :
    ∀ (i c : Nat) (update : List (Option Nat)),
      descend h v i c = (searchLoop h v i c update).map Prod.fst := by
  intro i
  induction i with
  | zero =>
    intro c update
    simp only [descend, searchLoop]
    cases advance h v 0 c (h.length + 1) <;> rfl
  | succ i ih =>
    intro c update
    simp only [descend, searchLoop]
    cases advance h v (i + 1) c (h.length + 1) with
    | none => rfl
    | some c2 => exact ih c2 _

/-- Full characterisation of the descending search loop on a
well-formed store: it succeeds, records in `update[j]` exactly the
level-`j` predecessor of the key for every processed level `j`, and stops
on the level-0 predecessor, whose remaining suffix is the high part. -/
theorem searchLoop_ok {h : List (Node T)} (v : T) {hd : Nat} {l : List Nat}
    (hdok : nodeOk h hd) (hdh : heightAt h hd = MAX_LEVEL)
    (hmem : ∀ b ∈ l, nodeOk h b)
    (hlen : l.length ≤ h.length) :
    ∀ (i c : Nat) (update : List (Option Nat)) (acc r : List Nat),
      acc ++ r = l →
      update.length = MAX_LEVEL + 1 →
      i ≤ MAX_LEVEL →
      nodeOk h c →
      i ≤ heightAt h c →
      ((acc = [] ∧ c = hd) ∨ acc.getLast? = some c) →
      (∀ b ∈ acc, SLElem.lt (valAt h b) v = true) →
      sortedAddrs h r →
      linkedSuffix h c r →
      ∃ cfin updfin,
        searchLoop h v i c update = some (cfin, updfin) ∧
        updfin.length = MAX_LEVEL + 1 ∧
        (∀ j, i < j → updfin.getD j none = update.getD j none) ∧
        (∀ j, j ≤ i → updfin.getD j none = some (predAt h v hd l j)) ∧
        (∀ j, j ≤ i → fwdAt h (predAt h v hd l j) j = levSucc h j (highPart h v l)) ∧
        cfin = predAt h v hd l 0 ∧
        nodeOk h cfin ∧
        linkedSuffix h cfin (highPart h v l) := by
  intro i
  induction i with
  | zero =>
    intro c update acc r hsplitl hulen hiM hcok hic hcchar haccv hsort hlink
    have hrmem : ∀ b ∈ r, nodeOk h b := fun b hb =>
      hmem b (hsplitl ▸ List.mem_append_right _ hb)
    have hrlen : r.length < h.length + 1 := by
      have hlen2 := congrArg List.length hsplitl
      rw [List.length_append] at hlen2
      omega
    obtain ⟨c2, done, r2, hadv, hsplit, hdonev, hchar, hlink2, hsort2, hstop⟩ :=
      advance_ok v (h.length + 1) c r hrlen hcok hic hrmem hsort hlink
    have hstopall := stop_all hsort2 hstop
    have hc2ok : nodeOk h c2 := by
      rcases hchar with ⟨h1, rfl⟩ | ⟨h1, h2, h3⟩
      exacts [hcok, h3]
    have hsplitl2 : acc ++ (done ++ r2) = l := by rw [← hsplit]; exact hsplitl
    obtain ⟨hpred, hchar2, hic2, hfwd2, hlow, hhigh⟩ :=
      search_level_core hdh hiM hsplitl2 haccv hdonev hcchar hic hchar hstopall hlink2
    have hr2f : ∀ b ∈ r2, SLElem.lt (valAt h b) v = false := fun b hb =>
      hstopall b hb (Nat.zero_le _)
    have hdropr2 : r2.dropWhile (fun b => SLElem.lt (valAt h b) v) = r2 := by
      cases r2 with
      | nil => rfl
      | cons a t =>
        have := hr2f a (List.mem_cons_self a t)
        rw [List.dropWhile_cons, this]
        rfl
    refine ⟨c2, update.set 0 (some c2), ?_, ?_, ?_, ?_, ?_, hpred.symm, hc2ok, ?_⟩
    · simp only [searchLoop]
      rw [hadv]
      rfl
    · rw [List.length_set]
      exact hulen
    · intro j hj
      exact getD_set_ne (by omega)
    · intro j hj
      have hj0 : j = 0 := by omega
      subst hj0
      rw [getD_set_self (by rw [hulen]; omega), hpred]
    · intro j hj
      have hj0 : j = 0 := by omega
      subst hj0
      rw [hpred]
      exact hfwd2
    · rw [hhigh, hdropr2]
      exact hlink2
  | succ i ih =>
    intro c update acc r hsplitl hulen hiM hcok hic hcchar haccv hsort hlink
    have hrmem : ∀ b ∈ r, nodeOk h b := fun b hb =>
      hmem b (hsplitl ▸ List.mem_append_right _ hb)
    have hrlen : r.length < h.length + 1 := by
      have hlen2 := congrArg List.length hsplitl
      rw [List.length_append] at hlen2
      omega
    obtain ⟨c2, done, r2, hadv, hsplit, hdonev, hchar, hlink2, hsort2, hstop⟩ :=
      advance_ok v (h.length + 1) c r hrlen hcok hic hrmem hsort hlink
    have hstopall := stop_all hsort2 hstop
    have hc2ok : nodeOk h c2 := by
      rcases hchar with ⟨h1, rfl⟩ | ⟨h1, h2, h3⟩
      exacts [hcok, h3]
    have hsplitl2 : acc ++ (done ++ r2) = l := by rw [← hsplit]; exact hsplitl
    obtain ⟨hpred, hchar2, hic2, hfwd2, hlow, hhigh⟩ :=
      search_level_core hdh hiM hsplitl2 haccv hdonev hcchar hic hchar hstopall hlink2
    have hacc2v : ∀ b ∈ acc ++ done, SLElem.lt (valAt h b) v = true := by
      intro b hb
      rcases List.mem_append.mp hb with h1 | h2
      exacts [haccv b h1, hdonev b h2]
    obtain ⟨cfin, updfin, hsl, hulen2, habove, hentries, hfwds, hcfin, hcfinok, hlinkfin⟩ :=
      ih c2 (update.set (i + 1) (some c2)) (acc ++ done) r2
        (by rw [List.append_assoc]; exact hsplitl2)
        (by rw [List.length_set]; exact hulen)
        (by omega)
        hc2ok
        (by omega)
        hchar2
        hacc2v
        hsort2
        hlink2
    refine ⟨cfin, updfin, ?_, hulen2, ?_, ?_, ?_, hcfin, hcfinok, hlinkfin⟩
    · simp only [searchLoop]
      rw [hadv]
      exact hsl
    · intro j hj
      rw [habove j (by omega), getD_set_ne (by omega)]
    · intro j hj
      by_cases hji : j ≤ i
      · exact hentries j hji
      · have hj2 : j = i + 1 := by omega
        subst hj2
        rw [habove (i + 1) (by omega), getD_set_self (by rw [hulen]; omega), hpred]
    · intro j hj
      by_cases hji : j ≤ i
      · exact hfwds j hji
      · have hj2 : j = i + 1 := by omega
        subst hj2
        rw [hpred]
        exact hfwd2

/-- Instantiation of the search characterisation at the real call site:
from the head at `current_level` with a fresh null `update` vector. -/
theorem search_from_head {s : SkipList T} {hd : Nat} {l : List Nat} (v : T)
    (hwf : WF s hd l) :
    ∃ cfin updfin,
      searchLoop s.heap v s.current_level hd (List.replicate (MAX_LEVEL + 1) none) =
        some (cfin, updfin) ∧
      updfin.length = MAX_LEVEL + 1 ∧
      (∀ j, s.current_level < j → updfin.getD j none = none) ∧
      (∀ j, j ≤ s.current_level →
        updfin.getD j none = some (predAt s.heap v hd l j)) ∧
      (∀ j, j ≤ s.current_level →
        fwdAt s.heap (predAt s.heap v hd l j) j =
          levSucc s.heap j (highPart s.heap v l)) ∧
      cfin = predAt s.heap v hd l 0 ∧
      nodeOk s.heap cfin ∧
      linkedSuffix s.heap cfin (highPart s.heap v l) := by
  obtain ⟨cfin, updfin, h1, h2, h3, h4, h5, h6, h7, h8⟩ :=
    searchLoop_ok v hwf.head_ok hwf.head_heightAt
      (fun b hb => (hwf.mem_ok b hb).1) hwf.len_le
      s.current_level hd (List.replicate (MAX_LEVEL + 1) none) [] l
      rfl (List.length_replicate _ _) hwf.level_le hwf.head_ok
      (by rw [hwf.head_heightAt]; exact hwf.level_le)
      (Or.inl ⟨rfl, rfl⟩) (by simp) hwf.sorted hwf.linked
  refine ⟨cfin, updfin, h1, h2, ?_, h4, h5, h6, h7, h8⟩
  intro j hj
  rw [h3 j hj, getD_replicate_none]

/-- The members above the key as `insert` and `erase` see them after the
search: `lt v` holds for each of them when `v` itself is absent. -/
theorem high_gt_of_not_mem {s : SkipList T} {hd : Nat} {l : List Nat}
    (hwf : WF s hd l) {v : T} (hv : v ∉ vals s.heap l) :
    ∀ b ∈ highPart s.heap v l, SLElem.lt v (valAt s.heap b) = true := by
  intro b hb
  cases hh : (highPart s.heap v l).head? with
  | none =>
    rw [List.head?_eq_none_iff] at hh
    rw [hh] at hb
    cases hb
  | some b0 =>
    obtain ⟨ys, hys⟩ := List.head?_eq_some_iff.mp hh
    have hb0 : SLElem.lt (valAt s.heap b0) v = false := by
      rw [highPart] at hh
      have := dropWhile_head_not hh
      simpa using this
    have hb0ne : valAt s.heap b0 ≠ v := by
      intro hcon
      have hb0mem : b0 ∈ highPart s.heap v l := by
        rw [hys]
        exact List.mem_cons_self _ _
      exact hv (mem_vals.mpr ⟨b0, high_sub b0 hb0mem, hcon⟩)
    have hvb0 : SLElem.lt v (valAt s.heap b0) = true := by
      have htot : SLElem.lt v (valAt s.heap b0) = true ∨
          SLElem.lt (valAt s.heap b0) v = true := lt_total_of_ne (Ne.symm hb0ne)
      rcases htot with h1 | h1
      · exact h1
      · rw [h1] at hb0
        cases hb0
    rcases List.mem_cons.mp (hys ▸ hb) with rfl | hbys
    · exact hvb0
    · have hsor : sortedAddrs s.heap (highPart s.heap v l) := by
        have hx := hwf.sorted
        rw [← hwf.low_high v, sortedAddrs_append] at hx
        exact hx.2.1
      rw [hys, sortedAddrs_cons] at hsor
      exact LawfulSLElem.lt_trans _ _ _ hvb0 (hsor.1 b hbys)

/-- Complete characterisation of `insert` on a well-formed state: a
present value is a no-op returning the very same state; an absent value
is spliced in between the low and the high part with a fresh node at the
end of the store, and well-formedness is preserved. -/
theorem insert_ok {s : SkipList T} {hd : Nat} {l : List Nat} (v : T) (hwf : WF s hd l) :
    ∃ s2, s.insert v = some s2 ∧
      ((v ∈ vals s.heap l ∧ s2 = s) ∨
       (v ∉ vals s.heap l ∧
        WF s2 hd (lowPart s.heap v l ++ s.heap.length :: highPart s.heap v l) ∧
        s2.head = s.head ∧
        s2.heap.length = s.heap.length + 1 ∧
        s2.size_ = s.size_ + 1 ∧
        (∀ a, a < s.heap.length → valAt s2.heap a = valAt s.heap a) ∧
        valAt s2.heap s.heap.length = v)) := by
  obtain ⟨cfin, updfin, hsl, hulen, habove, hentr, hfwdp, hcfineq, hcok, hlinkf⟩ :=
    search_from_head v hwf
  have hfw0 : fwdAt s.heap cfin 0 = (highPart s.heap v l).head? := by
    rw [linkedSuffix_fwd hlinkf 0 (Nat.zero_le _), levSucc_zero]
  have hread : readFwd s.heap cfin 0 = some ((highPart s.heap v l).head?) := by
    rw [readFwd_eq hcok.1 (by have := hcok.2; omega), hfw0]
  by_cases hv : v ∈ vals s.heap l
  · -- duplicate: the call is a no-op
    obtain ⟨a, hh, hbeq⟩ := (mem_vals_iff_head_beq hwf v).mp hv
    have hamem : a ∈ highPart s.heap v l := by
      obtain ⟨ys, hys⟩ := List.head?_eq_some_iff.mp hh
      rw [hys]
      exact List.mem_cons_self _ _
    have haok : nodeOk s.heap a := (hwf.mem_ok a (high_sub a hamem)).1
    have hnv : readNode s.heap a = some (nodeAt s.heap a) := readNode_eq haok.1
    have hbeq2 : SLElem.beq (nodeAt s.heap a).value v = true := hbeq
    refine ⟨s, ?_, Or.inl ⟨hv, rfl⟩⟩
    simp only [SkipList.insert, Option.bind_eq_bind, hwf.head_eq, hsl, hread,
      Option.some_bind, hh, hnv, hbeq2, Bool.not_true, Option.pure_def]
    rw [if_neg (show ¬(false = true) by simp)]
  · -- new value: a node is spliced in
    rcases hrl : random_level 0 s.rng with ⟨nl, rng2⟩
    have hnl : nl ≤ MAX_LEVEL := by
      have hx := random_level_le s.rng 0 (Nat.zero_le _)
      rw [hrl] at hx
      exact hx
    have hsplitl : lowPart s.heap v l ++ highPart s.heap v l = l := hwf.low_high v
    have hmemlt : ∀ a ∈ l, a < s.heap.length := fun a ha => (hwf.mem_ok a ha).1.1
    have hhighgt := high_gt_of_not_mem hwf hv
    -- the recorded predecessors
    have hplt : ∀ j, predAt s.heap v hd l j < s.heap.length := by
      intro j
      rcases predAt_cases s.heap v hd l j with h1 | h1
      · rw [h1]; exact hwf.head_lt
      · exact hmemlt _ (low_sub _ h1.1)
    have hpok : ∀ j, nodeOk s.heap (predAt s.heap v hd l j) := by
      intro j
      rcases predAt_cases s.heap v hd l j with h1 | h1
      · rw [h1]; exact hwf.head_ok
      · exact (hwf.mem_ok _ (low_sub _ h1.1)).1
    have hpht : ∀ j, j ≤ nl → j ≤ heightAt s.heap (predAt s.heap v hd l j) := by
      intro j hj
      rcases predAt_cases s.heap v hd l j with h1 | h1
      · rw [h1, hwf.head_heightAt]; omega
      · exact h1.2
    -- the update vector after the raise loop
    obtain ⟨hshl_len, hshl_in, hshl_out⟩ :=
      setHeadLevels_ok hd (nl - s.current_level) (s.current_level + 1) updfin
    have hupd2len :
        (if s.current_level < nl then
          setHeadLevels hd updfin (s.current_level + 1) (nl - s.current_level)
        else updfin).length = MAX_LEVEL + 1 := by
      by_cases hcn : s.current_level < nl
      · rw [if_pos hcn, hshl_len, hulen]
      · rw [if_neg hcn, hulen]
    have hupd2get : ∀ j, j ≤ nl →
        (if s.current_level < nl then
          setHeadLevels hd updfin (s.current_level + 1) (nl - s.current_level)
        else updfin).getD j none = some (predAt s.heap v hd l j) := by
      intro j hj
      by_cases hcn : s.current_level < nl
      · rw [if_pos hcn]
        by_cases hjc : j ≤ s.current_level
        · rw [hshl_out j (Or.inl (by omega))]
          exact hentr j hjc
        · rw [hshl_in j (by omega) (by omega) (by rw [hulen]; omega)]
          rw [predAt_eq_head_of_big
            (fun b hb => by have := hwf.height_le_level b hb; omega)]
      · rw [if_neg hcn]
        exact hentr j (by omega)
    have hfwdall : ∀ j, j ≤ MAX_LEVEL →
        fwdAt s.heap (predAt s.heap v hd l j) j =
          levSucc s.heap j (highPart s.heap v l) := by
      intro j hj
      by_cases hjc : j ≤ s.current_level
      · exact hfwdp j hjc
      · rw [predAt_eq_head_of_big
          (fun b hb => by have := hwf.height_le_level b hb; omega)]
        rw [linkedSuffix_fwd hwf.linked j (by rw [hwf.head_heightAt]; exact hj)]
        conv_lhs => rw [← hsplitl]
        rw [levSucc_append, levSucc_eq_none.mpr ?_, Option.none_or]
        intro b hb
        have := hwf.height_le_level b (low_sub b hb)
        omega
    -- the extended store with the fresh node at the end
    have hlen2 : (s.heap ++ [(⟨v, List.replicate (nl + 1) none⟩ : Node T)]).length =
        s.heap.length + 1 := by
      rw [List.length_append]
      rfl
    have hold2 : ∀ a, a < s.heap.length →
        nodeAt (s.heap ++ [(⟨v, List.replicate (nl + 1) none⟩ : Node T)]) a =
          nodeAt s.heap a := fun a ha => nodeAt_append_lt ha
    have hnew2 : nodeAt (s.heap ++ [(⟨v, List.replicate (nl + 1) none⟩ : Node T)])
        s.heap.length = ⟨v, List.replicate (nl + 1) none⟩ := nodeAt_concat_self
    have hnewh2 : heightAt (s.heap ++ [(⟨v, List.replicate (nl + 1) none⟩ : Node T)])
        s.heap.length = nl := by
      rw [heightAt, hnew2]
      simp [List.length_replicate]
    have hmh2 : ∀ a, a < s.heap.length →
        heightAt (s.heap ++ [(⟨v, List.replicate (nl + 1) none⟩ : Node T)]) a =
          heightAt s.heap a := fun a ha => heightAt_congr (hold2 a ha)
    -- run the splice loop
    obtain ⟨h3, hrun, hlen3, hval3, hflen3, hD, hE, hF⟩ :=
      spliceLoop_ok s.heap.length (predAt s.heap v hd l) (nl + 1) 0
        (s.heap ++ [(⟨v, List.replicate (nl + 1) none⟩ : Node T)])
        hupd2len (by omega)
        ⟨by rw [hlen2]; omega, by rw [hnew2]; simp [List.length_replicate]⟩
        (by rw [hnewh2]; omega)
        (by
          intro j h0 hj1
          refine ⟨hupd2get j (by omega), ?_, ?_, ?_⟩
          · exact ⟨by rw [hlen2]; have := hplt j; omega,
              by rw [hold2 _ (hplt j)]; exact (hpok j).2⟩
          · have := hplt j
            omega
          · rw [hmh2 _ (hplt j)]
            exact hpht j (by omega))
    -- frame facts about the final store
    have hval3s : ∀ a, a < s.heap.length → valAt h3 a = valAt s.heap a := by
      intro a ha
      have h1 : valAt h3 a =
          valAt (s.heap ++ [(⟨v, List.replicate (nl + 1) none⟩ : Node T)]) a := hval3 a
      rw [h1, valAt_congr (hold2 a ha)]
    have hval3new : valAt h3 s.heap.length = v := by
      have h1 : valAt h3 s.heap.length =
          valAt (s.heap ++ [(⟨v, List.replicate (nl + 1) none⟩ : Node T)])
            s.heap.length := hval3 s.heap.length
      rw [h1, valAt, hnew2]
    have hhei3 : ∀ a, heightAt h3 a =
        heightAt (s.heap ++ [(⟨v, List.replicate (nl + 1) none⟩ : Node T)]) a := by
      intro a
      rw [heightAt, heightAt, hflen3 a]
    have hhei3s : ∀ a, a < s.heap.length → heightAt h3 a = heightAt s.heap a :=
      fun a ha => (hhei3 a).trans (hmh2 a ha)
    have hhei3new : heightAt h3 s.heap.length = nl := (hhei3 _).trans hnewh2
    have hlev3 : ∀ (j : Nat) (lst : List Nat), (∀ b ∈ lst, b ∈ l) →
        levSucc h3 j lst = levSucc s.heap j lst := fun j lst hsub =>
      levSucc_congr fun b hb => hhei3s b (hmemlt b (hsub b hb))
    have hfwd3s : ∀ a, a < s.heap.length → (∀ j, a ≠ predAt s.heap v hd l j) →
        ∀ i, fwdAt h3 a i = fwdAt s.heap a i := by
      intro a ha hap i
      rw [hF a i (Or.inr (Or.inr ⟨by omega, hap i⟩))]
      exact fwdAt_congr (hold2 a ha) i
    have hnodupLow : (lowPart s.heap v l).Nodup := by
      have hx := hwf.nodup
      rw [← hsplitl] at hx
      exact hx.of_append_left
    have hhd_not_low : hd ∉ lowPart s.heap v l := fun hcon =>
      (hwf.mem_ok hd (low_sub hd hcon)).2 rfl
    have hdisj : ∀ x ∈ highPart s.heap v l, x ∉ lowPart s.heap v l := by
      have hx := hwf.nodup
      rw [← hsplitl] at hx
      intro x hxh hxl
      exact List.disjoint_of_nodup_append hx hxl hxh
    have hElim := linkedSuffix_elim hwf.linked
    -- the level-`i` links of the surviving low-zone nodes, after the splice
    have hkey : ∀ x lowrest,
        ((x = hd ∧ lowrest = lowPart s.heap v l) ∨
          (∃ pre2, lowPart s.heap v l = pre2 ++ x :: lowrest)) →
        ∀ i, i ≤ heightAt s.heap x →
          fwdAt h3 x i =
            levSucc h3 i (lowrest ++ s.heap.length :: highPart s.heap v l) := by
      intro x lowrest hxcase i hix
      have hxlt : x < s.heap.length := by
        rcases hxcase with ⟨hxhd, -⟩ | ⟨pre2, hpre2⟩
        · rw [hxhd]
          exact hwf.head_lt
        · have hxm : x ∈ lowPart s.heap v l := by
            rw [hpre2]
            exact List.mem_append_right _ (List.mem_cons_self _ _)
          exact hmemlt x (low_sub x hxm)
      have hlrsub : ∀ b ∈ lowrest, b ∈ lowPart s.heap v l := by
        rcases hxcase with ⟨-, hlr⟩ | ⟨pre2, hpre2⟩
        · rw [hlr]
          exact fun b hb => hb
        · intro b hb
          rw [hpre2]
          exact List.mem_append_right _ (List.mem_cons_of_mem _ hb)
      by_cases hp : i ≤ nl ∧ predAt s.heap v hd l i = x
      · -- the slot was rewired to the new node, which is the level-i successor
        obtain ⟨hinl, hpx⟩ := hp
        have hlrempty : ∀ b ∈ lowrest, ¬ (i ≤ heightAt s.heap b) := by
          rcases hxcase with ⟨hxhd, hlr⟩ | ⟨pre2, hpre2⟩
          · rw [hlr]
            have hpxhd : predAt s.heap v hd l i = hd := by rw [hpx, hxhd]
            cases hgl : ((lowPart s.heap v l).filter
                fun b => decide (i ≤ heightAt s.heap b)).getLast? with
            | none =>
              rw [List.getLast?_eq_none_iff] at hgl
              intro b hb hcon
              have hbm : b ∈ ((lowPart s.heap v l).filter
                  fun b => decide (i ≤ heightAt s.heap b)) :=
                List.mem_filter.mpr ⟨hb, decide_eq_true hcon⟩
              rw [hgl] at hbm
              cases hbm
            | some c =>
              have hc : predAt s.heap v hd l i = c := by rw [predAt, hgl]; rfl
              have hcl : c ∈ lowPart s.heap v l :=
                (List.filter_sublist _).subset (mem_of_getLast hgl)
              have hchd : c = hd := hc.symm.trans hpxhd
              rw [hchd] at hcl
              exact absurd hcl hhd_not_low
          · have hqx : decide (i ≤ heightAt s.heap x) = true := decide_eq_true hix
            have hiff := filter_getLast_eq_iff (fun b => decide (i ≤ heightAt s.heap b)) hpre2 hnodupLow hqx
            cases hgl : ((lowPart s.heap v l).filter
                fun b => decide (i ≤ heightAt s.heap b)).getLast? with
            | none =>
              have hph : predAt s.heap v hd l i = hd := by rw [predAt, hgl]; rfl
              have hxhd : x = hd := by rw [← hpx, hph]
              have hxlow : x ∈ lowPart s.heap v l := by
                rw [hpre2]
                exact List.mem_append_right _ (List.mem_cons_self _ _)
              rw [hxhd] at hxlow
              exact absurd hxlow hhd_not_low
            | some c =>
              have hpc : predAt s.heap v hd l i = c := by rw [predAt, hgl]; rfl
              have hcx : c = x := by rw [← hpc, hpx]
              rw [hcx] at hgl
              have hempty := hiff.mp hgl
              intro b hb hcon
              have hbm : b ∈ lowrest.filter (fun b => decide (i ≤ heightAt s.heap b)) :=
                List.mem_filter.mpr ⟨hb, decide_eq_true hcon⟩
              rw [hempty] at hbm
              cases hbm
        have hlhs : fwdAt h3 x i = some s.heap.length := by
          rw [← hpx]
          exact hE i (by omega) (by omega)
        have hnone : levSucc h3 i lowrest = none := by
          rw [levSucc_eq_none]
          intro b hb
          rw [hhei3s b (hmemlt b (low_sub b (hlrsub b hb)))]
          exact hlrempty b hb
        rw [hlhs, levSucc_append, hnone, Option.none_or, levSucc_cons,
          if_pos (by rw [hhei3new]; exact hinl)]
      · -- the slot kept its old link, still the successor in the new chain
        have hxne : x ≠ s.heap.length := by omega
        have hfx : fwdAt h3 x i = fwdAt s.heap x i := by
          by_cases hinl : i ≤ nl
          · have hpx : predAt s.heap v hd l i ≠ x := fun hcon => hp ⟨hinl, hcon⟩
            rw [hF x i (Or.inr (Or.inr ⟨hxne, fun hcon => hpx hcon.symm⟩))]
            exact fwdAt_congr (hold2 x hxlt) i
          · rw [hF x i (Or.inr (Or.inl (by omega)))]
            exact fwdAt_congr (hold2 x hxlt) i
        have hold_fwd : fwdAt s.heap x i =
            levSucc s.heap i (lowrest ++ highPart s.heap v l) := by
          rcases hxcase with ⟨hxhd, hlr⟩ | ⟨pre2, hpre2⟩
          · have hix2 : i ≤ heightAt s.heap hd := by
              rw [← hxhd]
              exact hix
            rw [hlr, hxhd, linkedSuffix_fwd hwf.linked i hix2]
            conv_lhs => rw [← hsplitl]
          · have haux : l = pre2 ++ x :: (lowrest ++ highPart s.heap v l) := by
              conv_lhs => rw [← hsplitl, hpre2]
              simp [List.append_assoc]
            have holdsplit : hd :: l =
                (hd :: pre2) ++ x :: (lowrest ++ highPart s.heap v l) := by
              conv_lhs => rw [haux]
              rw [List.cons_append]
            exact hElim (hd :: pre2) x _ holdsplit i hix
        rw [hfx, hold_fwd, levSucc_append, levSucc_append,
          hlev3 i lowrest (fun b hb => low_sub b (hlrsub b hb))]
        by_cases hinl : i ≤ nl
        · have hpx : predAt s.heap v hd l i ≠ x := fun hcon => hp ⟨hinl, hcon⟩
          have hex : ∃ b ∈ lowrest, i ≤ heightAt s.heap b := by
            rcases hxcase with ⟨hxhd, hlr⟩ | ⟨pre2, hpre2⟩
            · rw [hlr]
              have hpxhd : predAt s.heap v hd l i ≠ hd :=
                fun hcon => hpx (hcon.trans hxhd.symm)
              cases hgl : ((lowPart s.heap v l).filter
                  fun b => decide (i ≤ heightAt s.heap b)).getLast? with
              | none =>
                have hph : predAt s.heap v hd l i = hd := by rw [predAt, hgl]; rfl
                exact absurd hph hpxhd
              | some c =>
                have hcmem := mem_of_getLast hgl
                refine ⟨c, (List.filter_sublist _).subset hcmem, ?_⟩
                have := List.of_mem_filter hcmem
                simpa using this
            · have hqx : decide (i ≤ heightAt s.heap x) = true := decide_eq_true hix
              have hiff := filter_getLast_eq_iff (fun b => decide (i ≤ heightAt s.heap b)) hpre2 hnodupLow hqx
              cases hfl : lowrest.filter (fun b => decide (i ≤ heightAt s.heap b)) with
              | nil =>
                have hpc : predAt s.heap v hd l i = x := by
                  rw [predAt, hiff.mpr hfl]
                  rfl
                exact absurd hpc hpx
              | cons c cs =>
                have hcmem : c ∈ lowrest.filter
                    (fun b => decide (i ≤ heightAt s.heap b)) := by
                  rw [hfl]
                  exact List.mem_cons_self _ _
                refine ⟨c, (List.filter_sublist _).subset hcmem, ?_⟩
                have := List.of_mem_filter hcmem
                simpa using this
          obtain ⟨y, hy⟩ := levSucc_ne_none hex
          rw [hy]
          rfl
        · rw [levSucc_cons, if_neg (by rw [hhei3new]; omega),
            hlev3 i (highPart s.heap v l) (fun b hb => high_sub b hb)]
    -- the new node's own links
    have hnewcase : ∀ i, i ≤ nl →
        fwdAt h3 s.heap.length i = levSucc h3 i (highPart s.heap v l) := by
      intro i hinl2
      rw [hD i (by omega) (by omega)]
      have ht : fwdAt (s.heap ++ [(⟨v, List.replicate (nl + 1) none⟩ : Node T)])
          (predAt s.heap v hd l i) i = fwdAt s.heap (predAt s.heap v hd l i) i :=
        fwdAt_congr (hold2 _ (hplt i)) i
      rw [ht, hfwdall i (by omega)]
      exact (hlev3 i (highPart s.heap v l) (fun b hb => high_sub b hb)).symm
    -- the whole new chain is properly linked
    have hlinked2 : linkedSuffix h3 hd
        (lowPart s.heap v l ++ s.heap.length :: highPart s.heap v l) := by
      refine linkedSuffix_intro _ hd ?_
      intro pre x suf hsplit i hi
      have hchain : (hd :: lowPart s.heap v l) ++ s.heap.length :: highPart s.heap v l
          = pre ++ x :: suf := by
        rw [List.cons_append]
        exact hsplit
      rcases List.append_eq_append_iff.mp hchain with ⟨e, hpre, he⟩ | ⟨e, hpre, he⟩
      · cases e with
        | nil =>
          rw [List.nil_append] at he
          injection he with he1 he2
          subst he1
          subst he2
          refine hnewcase i ?_
          rw [hhei3new] at hi
          exact hi
        | cons e0 e2 =>
          rw [List.cons_append] at he
          injection he with he1 he2
          have hxh : x ∈ highPart s.heap v l := by
            rw [he2]
            exact List.mem_append_right _ (List.mem_cons_self _ _)
          have hxl : x ∈ l := high_sub x hxh
          have hxlt := hmemlt x hxl
          have hxpred : ∀ j, x ≠ predAt s.heap v hd l j := by
            intro j hcon
            rcases predAt_cases s.heap v hd l j with h1 | h1
            · exact (hwf.mem_ok x hxl).2 (hcon.trans h1)
            · exact hdisj x hxh (hcon ▸ h1.1)
          rw [hfwd3s x hxlt hxpred i]
          have hi2 : i ≤ heightAt s.heap x := by
            rw [← hhei3s x hxlt]
            exact hi
          have haux : l = lowPart s.heap v l ++ (e2 ++ x :: suf) := by
            conv_lhs => rw [← hsplitl]
            rw [he2]
          have holdsplit : hd :: l =
              ((hd :: lowPart s.heap v l) ++ e2) ++ x :: suf := by
            conv_lhs => rw [haux]
            simp [List.append_assoc]
          rw [hElim _ x suf holdsplit i hi2]
          have hsufsub : ∀ b ∈ suf, b ∈ highPart s.heap v l := by
            intro b hb
            rw [he2]
            exact List.mem_append_right _ (List.mem_cons_of_mem _ hb)
          exact (hlev3 i suf (fun b hb => high_sub b (hsufsub b hb))).symm
      · cases e with
        | nil =>
          rw [List.nil_append] at he
          injection he with he1 he2
          subst he1
          subst he2
          refine hnewcase i ?_
          rw [hhei3new] at hi
          exact hi
        | cons e0 e2 =>
          injection he with he1 he2
          subst he1
          have hxcase : (x = hd ∧ e2 = lowPart s.heap v l) ∨
              (∃ pre2, lowPart s.heap v l = pre2 ++ x :: e2) := by
            cases pre with
            | nil =>
              rw [List.nil_append] at hpre
              injection hpre with hp1 hp2
              exact Or.inl ⟨hp1.symm, hp2.symm⟩
            | cons p ps =>
              rw [List.cons_append] at hpre
              injection hpre with hp1 hp2
              exact Or.inr ⟨ps, hp2⟩
          have hxlt2 : x < s.heap.length := by
            rcases hxcase with ⟨rfl, -⟩ | ⟨pre2, hpre2⟩
            · exact hwf.head_lt
            · have hxlow : x ∈ lowPart s.heap v l := by
                rw [hpre2]
                exact List.mem_append_right _ (List.mem_cons_self _ _)
              exact hmemlt x (low_sub x hxlow)
          have hi2 : i ≤ heightAt s.heap x := by
            rw [← hhei3s x hxlt2]
            exact hi
          rw [he2]
          exact hkey x e2 hxcase i hi2
    -- sortedness of the new chain
    have hsLH : sortedAddrs s.heap (lowPart s.heap v l) ∧
        sortedAddrs s.heap (highPart s.heap v l) ∧
        ∀ a ∈ lowPart s.heap v l, ∀ b ∈ highPart s.heap v l,
          SLElem.lt (valAt s.heap a) (valAt s.heap b) = true := by
      rw [← sortedAddrs_append]
      rw [hsplitl]
      exact hwf.sorted
    have hsortl2 : sortedAddrs h3
        (lowPart s.heap v l ++ s.heap.length :: highPart s.heap v l) := by
      rw [sortedAddrs_append]
      refine ⟨?_, ?_, ?_⟩
      · exact (sortedAddrs_congr
          (fun b hb => hval3s b (hmemlt b (low_sub b hb)))).mp hsLH.1
      · rw [sortedAddrs_cons]
        constructor
        · intro b hb
          rw [hval3new, hval3s b (hmemlt b (high_sub b hb))]
          exact hhighgt b hb
        · exact (sortedAddrs_congr
            (fun b hb => hval3s b (hmemlt b (high_sub b hb)))).mp hsLH.2.1
      · intro a ha b hb
        rcases List.mem_cons.mp hb with rfl | hbh
        · rw [hval3new, hval3s a (hmemlt a (low_sub a ha))]
          exact low_lt a ha
        · rw [hval3s a (hmemlt a (low_sub a ha)),
            hval3s b (hmemlt b (high_sub b hbh))]
          exact hsLH.2.2 a ha b hbh
    have hnodup2 : (lowPart s.heap v l ++ s.heap.length :: highPart s.heap v l).Nodup := by
      rw [List.nodup_middle, List.nodup_cons]
      constructor
      · rw [hsplitl]
        intro hcon
        have := hmemlt _ hcon
        omega
      · rw [hsplitl]
        exact hwf.nodup
    have hlen_l2 : (lowPart s.heap v l ++ s.heap.length :: highPart s.heap v l).length =
        l.length + 1 := by
      rw [List.length_append, List.length_cons]
      have hc := congrArg List.length hsplitl
      rw [List.length_append] at hc
      omega
    have hmax3 : maxHeight h3
        (lowPart s.heap v l ++ s.heap.length :: highPart s.heap v l) =
        max (maxHeight s.heap l) nl := by
      rw [maxHeight_append, maxHeight_cons, hhei3new,
        maxHeight_congr (fun b hb => hhei3s b (hmemlt b (low_sub b hb))),
        maxHeight_congr (fun b hb => hhei3s b (hmemlt b (high_sub b hb)))]
      have hms : maxHeight s.heap l =
          max (maxHeight s.heap (lowPart s.heap v l))
            (maxHeight s.heap (highPart s.heap v l)) := by
        conv_lhs => rw [← hsplitl]
        rw [maxHeight_append]
      omega
    have hlen3s : h3.length = s.heap.length + 1 := by rw [hlen3, hlen2]
    refine ⟨⟨h3, s.head,
        if s.current_level < nl then nl else s.current_level,
        s.size_ + 1, rng2⟩, ?_, Or.inr ⟨hv, ?_, rfl, hlen3s, rfl, hval3s, hval3new⟩⟩
    · -- the run of `insert` reaches exactly this state
      rcases hh : (highPart s.heap v l).head? with _ | a
      · simp only [SkipList.insert, Option.bind_eq_bind, hwf.head_eq, hsl, hread,
          Option.some_bind, hh, Option.pure_def, hrl]
        rw [if_true, hrun, Option.some_bind]
      · have hahigh : a ∈ highPart s.heap v l := by
          obtain ⟨ys, hys⟩ := List.head?_eq_some_iff.mp hh
          rw [hys]
          exact List.mem_cons_self _ _
        have haok : nodeOk s.heap a := (hwf.mem_ok a (high_sub a hahigh)).1
        have hnv : readNode s.heap a = some (nodeAt s.heap a) := readNode_eq haok.1
        have hbeqf : SLElem.beq (nodeAt s.heap a).value v = false := by
          cases hb2 : SLElem.beq (nodeAt s.heap a).value v with
          | false => rfl
          | true => exact absurd ((mem_vals_iff_head_beq hwf v).mpr ⟨a, hh, hb2⟩) hv
        simp only [SkipList.insert, Option.bind_eq_bind, hwf.head_eq, hsl, hread,
          Option.some_bind, hh, hnv, hbeqf, Bool.not_false, Option.pure_def, hrl]
        rw [if_true, hrun, Option.some_bind]
    · -- well-formedness of the new state
      refine ⟨hwf.head_eq, ?_, ?_, ?_, hnodup2, hsortl2, hlinked2, ?_, ?_, ?_⟩
      · rw [hlen3s]
        have := hwf.head_lt
        omega
      · rw [hflen3 hd, hold2 hd hwf.head_lt, hwf.head_height]
      · intro a ha
        rcases List.mem_append.mp ha with h1 | h1
        · have hal : a ∈ l := low_sub a h1
          refine ⟨⟨by rw [hlen3s]; have := hmemlt a hal; omega, ?_⟩,
            (hwf.mem_ok a hal).2⟩
          rw [hflen3 a, hold2 a (hmemlt a hal)]
          exact (hwf.mem_ok a hal).1.2
        · rcases List.mem_cons.mp h1 with rfl | h2
          · refine ⟨⟨by rw [hlen3s]; omega, ?_⟩, ?_⟩
            · rw [hflen3 _, hnew2]
              simp [List.length_replicate]
            · have := hwf.head_lt
              omega
          · have hal : a ∈ l := high_sub a h2
            refine ⟨⟨by rw [hlen3s]; have := hmemlt a hal; omega, ?_⟩,
              (hwf.mem_ok a hal).2⟩
            rw [hflen3 a, hold2 a (hmemlt a hal)]
            exact (hwf.mem_ok a hal).1.2
      · show s.size_ + 1 = _
        rw [hwf.size_eq, hlen_l2]
      · show (if s.current_level < nl then nl else s.current_level) = _
        rw [hmax3, ← hwf.level_eq]
        split <;> omega
      · intro a ha
        rcases List.mem_append.mp ha with h1 | h1
        · rw [hhei3s a (hmemlt a (low_sub a h1))]
          exact hwf.height_bound a (low_sub a h1)
        · rcases List.mem_cons.mp h1 with rfl | h2
          · rw [hhei3new]
            exact hnl
          · rw [hhei3s a (hmemlt a (high_sub a h2))]
            exact hwf.height_bound a (high_sub a h2)

/-- Complete characterisation of `erase` on a well-formed state: an
absent value returns `false` and the very same state; a present value
returns `true`, unlinks exactly the first node of the high part while
leaving that node itself untouched, decrements `size_`, recomputes
`current_level`, and preserves well-formedness. -/
theorem erase_ok {s : SkipList T} {hd : Nat} {l : List Nat} (v : T) (hwf : WF s hd l) :
    ∃ r s2, s.erase v = some (r, s2) ∧
      ((v ∉ vals s.heap l ∧ r = false ∧ s2 = s) ∨
       (v ∈ vals s.heap l ∧ r = true ∧
        ∃ t, (highPart s.heap v l).head? = some t ∧
          valAt s.heap t = v ∧
          WF s2 hd (lowPart s.heap v l ++ (highPart s.heap v l).tail) ∧
          s2.head = s.head ∧
          s2.heap.length = s.heap.length ∧
          s2.size_ = s.size_ - 1 ∧
          (∀ a, valAt s2.heap a = valAt s.heap a) ∧
          nodeAt s2.heap t = nodeAt s.heap t)) := by
  obtain ⟨cfin, updfin, hsl, hulen, habove, hentr, hfwdp, hcfineq, hcok, hlinkf⟩ :=
    search_from_head v hwf
  have hfw0 : fwdAt s.heap cfin 0 = (highPart s.heap v l).head? := by
    rw [linkedSuffix_fwd hlinkf 0 (Nat.zero_le _), levSucc_zero]
  have hread : readFwd s.heap cfin 0 = some ((highPart s.heap v l).head?) := by
    rw [readFwd_eq hcok.1 (by have := hcok.2; omega), hfw0]
  by_cases hv : v ∈ vals s.heap l
  case neg =>
    -- absent: nothing matches, the call returns `(false, s)`
    refine ⟨false, s, ?_, Or.inl ⟨hv, rfl, rfl⟩⟩
    rcases hh : (highPart s.heap v l).head? with _ | a
    · simp only [SkipList.erase, Option.bind_eq_bind, hwf.head_eq, hsl, hread,
        Option.some_bind, hh, Option.pure_def]
    · have hahigh : a ∈ highPart s.heap v l := by
        obtain ⟨ys, hys⟩ := List.head?_eq_some_iff.mp hh
        rw [hys]
        exact List.mem_cons_self _ _
      have haok : nodeOk s.heap a := (hwf.mem_ok a (high_sub a hahigh)).1
      have hnv : readNode s.heap a = some (nodeAt s.heap a) := readNode_eq haok.1
      have hbeqf : SLElem.beq (nodeAt s.heap a).value v = false := by
        cases hb2 : SLElem.beq (nodeAt s.heap a).value v with
        | false => rfl
        | true => exact absurd ((mem_vals_iff_head_beq hwf v).mpr ⟨a, hh, hb2⟩) hv
      simp only [SkipList.erase, Option.bind_eq_bind, hwf.head_eq, hsl, hread,
        Option.some_bind, hh, hnv, hbeqf, Option.pure_def]
      rw [if_neg (show ¬(false = true) by simp)]
  case pos =>
    -- present: the head of the high part is the node carrying `v`
    obtain ⟨t, hh, hbeq⟩ := (mem_vals_iff_head_beq hwf v).mp hv
    obtain ⟨ys, hys⟩ := List.head?_eq_some_iff.mp hh
    have htv : valAt s.heap t = v := (LawfulSLElem.beq_iff _ _).mp hbeq
    have hthigh : t ∈ highPart s.heap v l := by
      rw [hys]
      exact List.mem_cons_self _ _
    have htl : t ∈ l := high_sub t hthigh
    have htok : nodeOk s.heap t := (hwf.mem_ok t htl).1
    have hthd : t ≠ hd := (hwf.mem_ok t htl).2
    have hmcl : heightAt s.heap t ≤ s.current_level := hwf.height_le_level t htl
    have hsplitl : lowPart s.heap v l ++ highPart s.heap v l = l := hwf.low_high v
    have hmemlt : ∀ a ∈ l, a < s.heap.length := fun a ha => (hwf.mem_ok a ha).1.1
    have hnodupLow : (lowPart s.heap v l).Nodup := by
      have hx := hwf.nodup
      rw [← hsplitl] at hx
      exact hx.of_append_left
    have hhd_not_low : hd ∉ lowPart s.heap v l := fun hcon =>
      (hwf.mem_ok hd (low_sub hd hcon)).2 rfl
    have hdisj : ∀ x ∈ highPart s.heap v l, x ∉ lowPart s.heap v l := by
      have hx := hwf.nodup
      rw [← hsplitl] at hx
      intro x hxh hxl
      exact List.disjoint_of_nodup_append hx hxl hxh
    have htys : t ∉ ys := by
      have hx := hwf.nodup
      rw [← hsplitl, hys] at hx
      exact (List.nodup_cons.mp hx.of_append_right).1
    have hlold : l = lowPart s.heap v l ++ t :: ys := by
      conv_lhs => rw [← hsplitl]
      rw [hys]
    have htsplit : hd :: l = (hd :: lowPart s.heap v l) ++ t :: ys := by
      rw [List.cons_append]
      conv_lhs => rw [hlold]
    -- the recorded predecessors
    have hplt : ∀ j, predAt s.heap v hd l j < s.heap.length := by
      intro j
      rcases predAt_cases s.heap v hd l j with h1 | h1
      · rw [h1]
        exact hwf.head_lt
      · exact hmemlt _ (low_sub _ h1.1)
    have hpok : ∀ j, nodeOk s.heap (predAt s.heap v hd l j) := by
      intro j
      rcases predAt_cases s.heap v hd l j with h1 | h1
      · rw [h1]
        exact hwf.head_ok
      · exact (hwf.mem_ok _ (low_sub _ h1.1)).1
    have hpht : ∀ j, j ≤ MAX_LEVEL → j ≤ heightAt s.heap (predAt s.heap v hd l j) := by
      intro j hj
      rcases predAt_cases s.heap v hd l j with h1 | h1
      · rw [h1, hwf.head_heightAt]
        exact hj
      · exact h1.2
    have hpne : ∀ j, predAt s.heap v hd l j ≠ t := by
      intro j
      rcases predAt_cases s.heap v hd l j with h1 | h1
      · rw [h1]
        exact fun hcon => hthd hcon.symm
      · intro hcon
        exact hdisj t hthigh (hcon ▸ h1.1)
    have hfwdlow : ∀ j, j ≤ s.current_level → j ≤ heightAt s.heap t →
        fwdAt s.heap (predAt s.heap v hd l j) j = some t := by
      intro j hj hjm
      rw [hfwdp j hj, hys, levSucc_cons, if_pos hjm]
    have hfwdhigh : ∀ j, j ≤ s.current_level → heightAt s.heap t < j →
        fwdAt s.heap (predAt s.heap v hd l j) j ≠ some t := by
      intro j hj hjm
      rw [hfwdp j hj, hys, levSucc_cons, if_neg (by omega)]
      intro hcon
      exact htys (levSucc_mem hcon).1
    -- run the unlink loop
    obtain ⟨h2, hrun, hlen2, hval2, hflen2, hW, hF, hN⟩ :=
      unlinkLoop_ok t (heightAt s.heap t) (predAt s.heap v hd l)
        (s.current_level + 1) 0 s.heap hulen
        (by have := hwf.level_le; omega) htok rfl
        (by
          intro j h0 hj
          have hj2 : j ≤ s.current_level := by omega
          refine ⟨hentr j hj2, hpok j, hpne j,
            hpht j (by have := hwf.level_le; omega), ?_, ?_⟩
          · intro hjm
            exact hfwdlow j hj2 hjm
          · intro hjm
            exact hfwdhigh j hj2 hjm)
    -- frame facts about the unlinked store
    have hval2v : ∀ a, valAt h2 a = valAt s.heap a := by
      intro a
      rw [valAt, valAt, hval2 a]
    have hhei2 : ∀ a, heightAt h2 a = heightAt s.heap a := by
      intro a
      rw [heightAt, heightAt, hflen2 a]
    have hlev2 : ∀ (j : Nat) (lst : List Nat), levSucc h2 j lst = levSucc s.heap j lst :=
      fun j lst => levSucc_congr fun b _ => hhei2 b
    have hnodeT : nodeAt h2 t = nodeAt s.heap t :=
      hN t (fun j _ _ => (hpne j).symm)
    -- the erased node keeps its own links, and they describe `ys`
    have htfwd : ∀ i, i ≤ heightAt s.heap t → fwdAt s.heap t i = levSucc s.heap i ys :=
      fun i hi => linkedSuffix_elim hwf.linked (hd :: lowPart s.heap v l) t ys htsplit i hi
    have hElim := linkedSuffix_elim hwf.linked
    -- the level-`i` links of the surviving low-zone nodes, after the unlink
    have hkey : ∀ x lowrest,
        ((x = hd ∧ lowrest = lowPart s.heap v l) ∨
          (∃ pre2, lowPart s.heap v l = pre2 ++ x :: lowrest)) →
        ∀ i, i ≤ heightAt s.heap x →
          fwdAt h2 x i = levSucc h2 i (lowrest ++ ys) := by
      intro x lowrest hxcase i hix
      have hxlt : x < s.heap.length := by
        rcases hxcase with ⟨hxhd, -⟩ | ⟨pre2, hpre2⟩
        · rw [hxhd]
          exact hwf.head_lt
        · have hxm : x ∈ lowPart s.heap v l := by
            rw [hpre2]
            exact List.mem_append_right _ (List.mem_cons_self _ _)
          exact hmemlt x (low_sub x hxm)
      have hlrsub : ∀ b ∈ lowrest, b ∈ lowPart s.heap v l := by
        rcases hxcase with ⟨-, hlr⟩ | ⟨pre2, hpre2⟩
        · rw [hlr]
          exact fun b hb => hb
        · intro b hb
          rw [hpre2]
          exact List.mem_append_right _ (List.mem_cons_of_mem _ hb)
      by_cases hp : i ≤ heightAt s.heap t ∧ predAt s.heap v hd l i = x
      · -- the slot was rewired to the target's own level-`i` link
        obtain ⟨him, hpx⟩ := hp
        have hlrempty : ∀ b ∈ lowrest, ¬ (i ≤ heightAt s.heap b) := by
          rcases hxcase with ⟨hxhd, hlr⟩ | ⟨pre2, hpre2⟩
          · rw [hlr]
            have hpxhd : predAt s.heap v hd l i = hd := by rw [hpx, hxhd]
            cases hgl : ((lowPart s.heap v l).filter
                fun b => decide (i ≤ heightAt s.heap b)).getLast? with
            | none =>
              rw [List.getLast?_eq_none_iff] at hgl
              intro b hb hcon
              have hbm : b ∈ ((lowPart s.heap v l).filter
                  fun b => decide (i ≤ heightAt s.heap b)) :=
                List.mem_filter.mpr ⟨hb, decide_eq_true hcon⟩
              rw [hgl] at hbm
              cases hbm
            | some c =>
              have hc : predAt s.heap v hd l i = c := by rw [predAt, hgl]; rfl
              have hcl : c ∈ lowPart s.heap v l :=
                (List.filter_sublist _).subset (mem_of_getLast hgl)
              have hchd : c = hd := hc.symm.trans hpxhd
              rw [hchd] at hcl
              exact absurd hcl hhd_not_low
          · have hqx : decide (i ≤ heightAt s.heap x) = true := decide_eq_true hix
            have hiff := filter_getLast_eq_iff (fun b => decide (i ≤ heightAt s.heap b)) hpre2 hnodupLow hqx
            cases hgl : ((lowPart s.heap v l).filter
                fun b => decide (i ≤ heightAt s.heap b)).getLast? with
            | none =>
              have hph : predAt s.heap v hd l i = hd := by rw [predAt, hgl]; rfl
              have hxhd : x = hd := by rw [← hpx, hph]
              have hxlow : x ∈ lowPart s.heap v l := by
                rw [hpre2]
                exact List.mem_append_right _ (List.mem_cons_self _ _)
              rw [hxhd] at hxlow
              exact absurd hxlow hhd_not_low
            | some c =>
              have hpc : predAt s.heap v hd l i = c := by rw [predAt, hgl]; rfl
              have hcx : c = x := by rw [← hpc, hpx]
              rw [hcx] at hgl
              have hempty := hiff.mp hgl
              intro b hb hcon
              have hbm : b ∈ lowrest.filter (fun b => decide (i ≤ heightAt s.heap b)) :=
                List.mem_filter.mpr ⟨hb, decide_eq_true hcon⟩
              rw [hempty] at hbm
              cases hbm
        have hlhs : fwdAt h2 x i = fwdAt s.heap t i := by
          rw [← hpx]
          exact hW i (Nat.zero_le _) (by omega) him
        have hnone : levSucc h2 i lowrest = none := by
          rw [levSucc_eq_none]
          intro b hb
          rw [hhei2 b]
          exact hlrempty b hb
        rw [hlhs, htfwd i him, levSucc_append, hnone, Option.none_or, hlev2]
      · -- the slot kept its old link, still the successor in the new chain
        have hfx : fwdAt h2 x i = fwdAt s.heap x i := by
          by_cases him : i ≤ heightAt s.heap t
          · have hpx : predAt s.heap v hd l i ≠ x := fun hcon => hp ⟨him, hcon⟩
            rw [hF x i (Or.inr (Or.inr (Or.inr (fun hcon => hpx hcon.symm))))]
          · rw [hF x i (Or.inr (Or.inr (Or.inl (by omega))))]
        have hold_fwd : fwdAt s.heap x i =
            levSucc s.heap i (lowrest ++ t :: ys) := by
          rcases hxcase with ⟨hxhd, hlr⟩ | ⟨pre2, hpre2⟩
          · have hix2 : i ≤ heightAt s.heap hd := by
              rw [← hxhd]
              exact hix
            rw [hlr, hxhd, linkedSuffix_fwd hwf.linked i hix2]
            conv_lhs => rw [hlold]
          · have haux : l = pre2 ++ x :: (lowrest ++ t :: ys) := by
              conv_lhs => rw [hlold]
              rw [hpre2]
              simp [List.append_assoc]
            have holdsplit : hd :: l =
                (hd :: pre2) ++ x :: (lowrest ++ t :: ys) := by
              conv_lhs => rw [haux]
              rw [List.cons_append]
            exact hElim (hd :: pre2) x _ holdsplit i hix
        rw [hfx, hold_fwd, hlev2, levSucc_append, levSucc_append]
        cases hls : levSucc s.heap i lowrest with
        | some y => rfl
        | none =>
          rw [Option.none_or, Option.none_or]
          by_cases him : i ≤ heightAt s.heap t
          · exfalso
            have hpx : predAt s.heap v hd l i ≠ x := fun hcon => hp ⟨him, hcon⟩
            have hex : ∃ b ∈ lowrest, i ≤ heightAt s.heap b := by
              rcases hxcase with ⟨hxhd, hlr⟩ | ⟨pre2, hpre2⟩
              · rw [hlr]
                have hpxhd : predAt s.heap v hd l i ≠ hd :=
                  fun hcon => hpx (hcon.trans hxhd.symm)
                cases hgl : ((lowPart s.heap v l).filter
                    fun b => decide (i ≤ heightAt s.heap b)).getLast? with
                | none =>
                  have hph : predAt s.heap v hd l i = hd := by rw [predAt, hgl]; rfl
                  exact absurd hph hpxhd
                | some c =>
                  have hcmem := mem_of_getLast hgl
                  refine ⟨c, (List.filter_sublist _).subset hcmem, ?_⟩
                  have := List.of_mem_filter hcmem
                  simpa using this
              · have hqx : decide (i ≤ heightAt s.heap x) = true := decide_eq_true hix
                have hiff := filter_getLast_eq_iff (fun b => decide (i ≤ heightAt s.heap b)) hpre2 hnodupLow hqx
                cases hfl : lowrest.filter (fun b => decide (i ≤ heightAt s.heap b)) with
                | nil =>
                  have hpc : predAt s.heap v hd l i = x := by
                    rw [predAt, hiff.mpr hfl]
                    rfl
                  exact absurd hpc hpx
                | cons c cs =>
                  have hcmem : c ∈ lowrest.filter
                      (fun b => decide (i ≤ heightAt s.heap b)) := by
                    rw [hfl]
                    exact List.mem_cons_self _ _
                  refine ⟨c, (List.filter_sublist _).subset hcmem, ?_⟩
                  have := List.of_mem_filter hcmem
                  simpa using this
            obtain ⟨y, hy⟩ := levSucc_ne_none hex
            rw [hy] at hls
            cases hls
          · rw [levSucc_cons, if_neg (by omega)]
    -- the whole surviving chain is properly linked
    have hlinked2 : linkedSuffix h2 hd (lowPart s.heap v l ++ ys) := by
      refine linkedSuffix_intro _ hd ?_
      intro pre x suf hsplit i hi
      have hchain : (hd :: lowPart s.heap v l) ++ ys = pre ++ x :: suf := by
        rw [List.cons_append]
        exact hsplit
      rw [hhei2 x] at hi
      have hyszone : ∀ pref, ys = pref ++ x :: suf →
          fwdAt h2 x i = levSucc h2 i suf := by
        intro pref hpref
        have hxys : x ∈ ys := by
          rw [hpref]
          exact List.mem_append_right _ (List.mem_cons_self _ _)
        have hxh2 : x ∈ highPart s.heap v l := by
          rw [hys]
          exact List.mem_cons_of_mem _ hxys
        have hxl : x ∈ l := high_sub x hxh2
        have hxpred : ∀ j, x ≠ predAt s.heap v hd l j := by
          intro j hcon
          rcases predAt_cases s.heap v hd l j with h1 | h1
          · exact (hwf.mem_ok x hxl).2 (hcon.trans h1)
          · exact hdisj x hxh2 (hcon ▸ h1.1)
        have hnx : nodeAt h2 x = nodeAt s.heap x :=
          hN x (fun j _ _ => hxpred j)
        have holdsplit : hd :: l =
            ((hd :: lowPart s.heap v l) ++ t :: pref) ++ x :: suf := by
          conv_lhs => rw [hlold, hpref]
          simp [List.append_assoc]
        rw [fwdAt_congr hnx i, hElim _ x suf holdsplit i hi, hlev2]
      rcases List.append_eq_append_iff.mp hchain with ⟨e, hpre, he⟩ | ⟨e, hpre, he⟩
      · exact hyszone e he
      · cases e with
        | nil =>
          rw [List.nil_append] at he
          exact hyszone [] he.symm
        | cons e0 e2 =>
          injection he with he1 he2
          subst he1
          have hxcase : (x = hd ∧ e2 = lowPart s.heap v l) ∨
              (∃ pre2, lowPart s.heap v l = pre2 ++ x :: e2) := by
            cases pre with
            | nil =>
              rw [List.nil_append] at hpre
              injection hpre with hp1 hp2
              exact Or.inl ⟨hp1.symm, hp2.symm⟩
            | cons p ps =>
              rw [List.cons_append] at hpre
              injection hpre with hp1 hp2
              exact Or.inr ⟨ps, hp2⟩
          rw [he2]
          exact hkey x e2 hxcase i hi
    -- membership in the surviving chain, inside the old chain
    have hl2sub : ∀ a, a ∈ lowPart s.heap v l ++ ys → a ∈ l := by
      intro a ha
      rcases List.mem_append.mp ha with h1 | h1
      · exact low_sub a h1
      · have hah : a ∈ highPart s.heap v l := by
          rw [hys]
          exact List.mem_cons_of_mem _ h1
        exact high_sub a hah
    have hsubl : (lowPart s.heap v l ++ ys).Sublist l := by
      conv_rhs => rw [hlold]
      exact List.Sublist.append_left (List.sublist_cons_self t ys) _
    have hnodup2 : (lowPart s.heap v l ++ ys).Nodup := hwf.nodup.sublist hsubl
    have hsortl2 : sortedAddrs h2 (lowPart s.heap v l ++ ys) := by
      have hs0 : sortedAddrs s.heap (lowPart s.heap v l ++ ys) := hwf.sorted.sublist hsubl
      exact (sortedAddrs_congr fun b _ => hval2v b).mp hs0
    -- the shrink loop recomputes the level
    have hdok2 : nodeOk h2 hd := by
      refine ⟨by rw [hlen2]; exact hwf.head_lt, ?_⟩
      rw [hflen2 hd, hwf.head_height]
      omega
    have hdh2 : heightAt h2 hd = MAX_LEVEL := by
      rw [hhei2 hd]
      exact hwf.head_heightAt
    have hfwdhd2 : ∀ j, j ≤ MAX_LEVEL →
        fwdAt h2 hd j = levSucc h2 j (lowPart s.heap v l ++ ys) := by
      intro j hj
      exact linkedSuffix_fwd hlinked2 j (by rw [hdh2]; exact hj)
    have hbound2 : ∀ a ∈ lowPart s.heap v l ++ ys, heightAt h2 a ≤ s.current_level := by
      intro a ha
      rw [hhei2 a]
      exact hwf.height_le_level a (hl2sub a ha)
    have hcl2 : shrinkLoop h2 hd s.current_level =
        some (maxHeight h2 (lowPart s.heap v l ++ ys)) :=
      shrinkLoop_ok hdok2 hdh2 hfwdhd2 s.current_level hwf.level_le hbound2
    -- lengths and counters
    have hlenl : l.length = (lowPart s.heap v l ++ ys).length + 1 := by
      have hc := congrArg List.length hlold
      rw [List.length_append, List.length_cons] at hc
      rw [List.length_append]
      omega
    have hsz : s.size_ - 1 = (lowPart s.heap v l ++ ys).length := by
      rw [hwf.size_eq, hlenl]
      omega
    have htail : (highPart s.heap v l).tail = ys := by
      rw [hys]
      rfl
    -- assemble the final state
    have hnv : readNode s.heap t = some (nodeAt s.heap t) := readNode_eq htok.1
    have hbeq2 : SLElem.beq (nodeAt s.heap t).value v = true := hbeq
    refine ⟨true, ⟨h2, s.head, maxHeight h2 (lowPart s.heap v l ++ ys),
        s.size_ - 1, s.rng⟩, ?_,
      Or.inr ⟨hv, rfl, t, hh, htv, ?_, rfl, hlen2, rfl, hval2v, hnodeT⟩⟩
    · -- the run of `erase` reaches exactly this state
      simp only [SkipList.erase, Option.bind_eq_bind, hwf.head_eq, hsl, hread,
        Option.some_bind, hh, hnv, hbeq2, Option.pure_def]
      rw [if_true, hrun, Option.some_bind, hcl2, Option.some_bind]
    · -- well-formedness of the new state
      rw [htail]
      refine ⟨hwf.head_eq, ?_, ?_, ?_, hnodup2, hsortl2, hlinked2, hsz, rfl, ?_⟩
      · rw [hlen2]
        exact hwf.head_lt
      · rw [hflen2 hd]
        exact hwf.head_height
      · intro a ha
        have hal := hl2sub a ha
        refine ⟨⟨?_, ?_⟩, (hwf.mem_ok a hal).2⟩
        · rw [hlen2]
          exact hmemlt a hal
        · rw [hflen2 a]
          exact (hwf.mem_ok a hal).1.2
      · intro a ha
        rw [hhei2 a]
        exact hwf.height_bound a (hl2sub a ha)

/-- The freshly constructed set is well-formed with sentinel address 0 and
no members. -/
theorem init_wf (seed : List Bool) : WF (SkipList.init seed : SkipList T) 0 [] := by
  refine ⟨rfl, Nat.one_pos, rfl, ?_, List.nodup_nil, List.Pairwise.nil, ?_, rfl, rfl, ?_⟩
  · intro a ha
    cases ha
  · intro i hi
    exact getD_replicate_none _ _
  · intro a ha
    cases ha

/-- `clear()` leaves a well-formed empty set whose sentinel is the fresh
node appended at the end of the store. -/
theorem clear_wf (s : SkipList T) : WF s.clear s.heap.length [] := by
  refine ⟨rfl, ?_, ?_, ?_, List.nodup_nil, List.Pairwise.nil, ?_, rfl, rfl, ?_⟩
  · show s.heap.length < (s.heap ++ [_]).length
    rw [List.length_append]
    simp
  · show (nodeAt (s.heap ++ [_]) s.heap.length).forward.length = MAX_LEVEL + 1
    rw [nodeAt_concat_self]
    simp [List.length_replicate]
  · intro a ha
    cases ha
  · intro i hi
    show fwdAt (s.heap ++ [_]) s.heap.length i = none
    rw [fwdAt, nodeAt_concat_self]
    exact getD_replicate_none _ _
  · intro a ha
    cases ha

/-- Walking level-0 links with enough fuel from the head of a properly
linked member list yields exactly the members' values. -/
theorem chainVals_ok {h : List (Node T)} :
    ∀ (r : List Nat) (fuel : Nat) (c : Nat),
      r.length < fuel →
      (∀ b ∈ r, nodeOk h b) →
      linkedSuffix h c r →
      chainVals h r.head? fuel = some (vals h r) := by
  intro r
  induction r with
  | nil =>
    intro fuel c h1 h2 h3
    cases fuel <;> rfl
  | cons b rest ih =>
    intro fuel c h1 h2 h3
    cases fuel with
    | zero => omega
    | succ f =>
      have hbok : nodeOk h b := h2 b (List.mem_cons_self _ _)
      have hlink : fwdAt h b 0 = rest.head? := by
        rw [linkedSuffix_fwd h3.2 0 (Nat.zero_le _), levSucc_zero]
      have hrest : chainVals h rest.head? f = some (vals h rest) := by
        refine ih f b ?_ (fun x hx => h2 x (List.mem_cons_of_mem _ hx)) h3.2
        have : (b :: rest).length = rest.length + 1 := rfl
        omega
      show (do
        let n ← readNode h b
        let link ← n.forward[0]?
        let rest2 ← chainVals h link f
        pure (n.value :: rest2)) = some (vals h (b :: rest))
      rw [readNode_eq hbok.1]
      show (do
        let link ← (nodeAt h b).forward[0]?
        let rest2 ← chainVals h link f
        pure ((nodeAt h b).value :: rest2)) = some (vals h (b :: rest))
      rw [getElem?_eq_some_getD (by have := hbok.2; omega)]
      show (do
        let rest2 ← chainVals h (fwdAt h b 0) f
        pure ((nodeAt h b).value :: rest2)) = some (vals h (b :: rest))
      rw [hlink, hrest]
      rfl

/-- Full iteration of a well-formed set yields exactly the members'
values, in member order. -/
theorem toList_ok {s : SkipList T} {hd : Nat} {l : List Nat} (hwf : WF s hd l) :
    s.toList = some (vals s.heap l) := by
  have hlink : fwdAt s.heap hd 0 = l.head? := by
    rw [linkedSuffix_fwd hwf.linked 0 (Nat.zero_le _), levSucc_zero]
  have hread : readFwd s.heap hd 0 = some (l.head?) := by
    rw [readFwd_eq hwf.head_ok.1 (by have := hwf.head_ok.2; omega), hlink]
  have hchain : chainVals s.heap l.head? (s.heap.length + 1) = some (vals s.heap l) :=
    chainVals_ok l (s.heap.length + 1) hd (by have := hwf.len_le; omega)
      (fun b hb => (hwf.mem_ok b hb).1) hwf.linked
  simp only [SkipList.toList, Option.bind_eq_bind, hwf.head_eq, Option.some_bind, hread]
  exact hchain

/-- Complete characterisation of `find` on a well-formed state: a present
value yields a cursor on the member carrying it, an absent value yields
the end cursor. -/
theorem find_ok {s : SkipList T} {hd : Nat} {l : List Nat} (v : T) (hwf : WF s hd l) :
    ∃ it, s.find v = some it ∧
      ((v ∈ vals s.heap l ∧
        ∃ a, it = ⟨some a⟩ ∧ a ∈ l ∧ valAt s.heap a = v) ∨
       (v ∉ vals s.heap l ∧ it = ⟨none⟩)) := by
  obtain ⟨cfin, updfin, hsl, hulen, habove, hentr, hfwdp, hcfineq, hcok, hlinkf⟩ :=
    search_from_head v hwf
  have hfw0 : fwdAt s.heap cfin 0 = (highPart s.heap v l).head? := by
    rw [linkedSuffix_fwd hlinkf 0 (Nat.zero_le _), levSucc_zero]
  have hread : readFwd s.heap cfin 0 = some ((highPart s.heap v l).head?) := by
    rw [readFwd_eq hcok.1 (by have := hcok.2; omega), hfw0]
  have hdesc : descend s.heap v s.current_level hd = some cfin := by
    rw [descend_eq s.current_level hd (List.replicate (MAX_LEVEL + 1) none), hsl]
    rfl
  by_cases hv : v ∈ vals s.heap l
  · obtain ⟨t, hh, hbeq⟩ := (mem_vals_iff_head_beq hwf v).mp hv
    have hthigh : t ∈ highPart s.heap v l := by
      obtain ⟨ys, hys⟩ := List.head?_eq_some_iff.mp hh
      rw [hys]
      exact List.mem_cons_self _ _
    have htl : t ∈ l := high_sub t hthigh
    have htok : nodeOk s.heap t := (hwf.mem_ok t htl).1
    have hnv : readNode s.heap t = some (nodeAt s.heap t) := readNode_eq htok.1
    have hbeq2 : SLElem.beq (nodeAt s.heap t).value v = true := hbeq
    refine ⟨⟨some t⟩, ?_,
      Or.inl ⟨hv, t, rfl, htl, (LawfulSLElem.beq_iff _ _).mp hbeq⟩⟩
    simp only [SkipList.find, Option.bind_eq_bind, hwf.head_eq, Option.some_bind,
      hdesc, hread, hh, hnv, hbeq2, Option.pure_def]
    rw [if_true]
  · refine ⟨⟨none⟩, ?_, Or.inr ⟨hv, rfl⟩⟩
    rcases hh : (highPart s.heap v l).head? with _ | a
    · simp only [SkipList.find, Option.bind_eq_bind, hwf.head_eq, Option.some_bind,
        hdesc, hread, hh, Option.pure_def]
    · have hahigh : a ∈ highPart s.heap v l := by
        obtain ⟨ys, hys⟩ := List.head?_eq_some_iff.mp hh
        rw [hys]
        exact List.mem_cons_self _ _
      have haok : nodeOk s.heap a := (hwf.mem_ok a (high_sub a hahigh)).1
      have hnv : readNode s.heap a = some (nodeAt s.heap a) := readNode_eq haok.1
      have hbeqf : SLElem.beq (nodeAt s.heap a).value v = false := by
        cases hb2 : SLElem.beq (nodeAt s.heap a).value v with
        | false => rfl
        | true => exact absurd ((mem_vals_iff_head_beq hwf v).mpr ⟨a, hh, hb2⟩) hv
      simp only [SkipList.find, Option.bind_eq_bind, hwf.head_eq, Option.some_bind,
        hdesc, hread, hh, hnv, hbeqf, Option.pure_def]
      rw [if_neg (show ¬(false = true) by simp)]

/-- The members of a well-formed set carry strictly ascending values. -/
theorem sorted_vals {s : SkipList T} {hd : Nat} {l : List Nat} (hwf : WF s hd l) :
    (vals s.heap l).Pairwise (fun a b => SLElem.lt a b = true) := by
  rw [vals, List.pairwise_map]
  exact hwf.sorted

/-- The members of a well-formed set carry pairwise distinct values. -/
theorem vals_nodup {s : SkipList T} {hd : Nat} {l : List Nat} (hwf : WF s hd l) :
    (vals s.heap l).Nodup := by
  refine (sorted_vals hwf).imp ?_
  intro a b hab hcon
  rw [hcon, LawfulSLElem.lt_irrefl] at hab
  cases hab

/-- `insert` in terms of membership: it succeeds, preserves
well-formedness with the same sentinel, and the members afterwards are the
old members plus the new value. -/
theorem insert_mem {s : SkipList T} {hd : Nat} {l : List Nat} (v : T) (hwf : WF s hd l) :
    ∃ s2 l2, s.insert v = some s2 ∧ WF s2 hd l2 ∧
      (∀ x, x ∈ vals s2.heap l2 ↔ x ∈ vals s.heap l ∨ x = v) := by
  obtain ⟨s2, hrun, hcase⟩ := insert_ok v hwf
  rcases hcase with ⟨hv, rfl⟩ | ⟨hv, hwf2, hhead, hlen, hsz, hvold, hvnew⟩
  · refine ⟨s2, l, hrun, hwf, fun x => ⟨Or.inl, ?_⟩⟩
    rintro (hx | rfl)
    · exact hx
    · exact hv
  · have hmemlt : ∀ a ∈ l, a < s.heap.length := fun a ha => (hwf.mem_ok a ha).1.1
    have hsplitl : lowPart s.heap v l ++ highPart s.heap v l = l := hwf.low_high v
    refine ⟨s2, lowPart s.heap v l ++ s.heap.length :: highPart s.heap v l,
      hrun, hwf2, fun x => ?_⟩
    constructor
    · intro hx
      obtain ⟨a, hal2, hav⟩ := mem_vals.mp hx
      rcases List.mem_append.mp hal2 with h1 | h1
      · have hal : a ∈ l := low_sub a h1
        refine Or.inl (mem_vals.mpr ⟨a, hal, ?_⟩)
        rw [← hvold a (hmemlt a hal)]
        exact hav
      · rcases List.mem_cons.mp h1 with rfl | h2
        · refine Or.inr ?_
          rw [← hav, hvnew]
        · have hal : a ∈ l := high_sub a h2
          refine Or.inl (mem_vals.mpr ⟨a, hal, ?_⟩)
          rw [← hvold a (hmemlt a hal)]
          exact hav
    · rintro (hx | rfl)
      · obtain ⟨a, hal, hav⟩ := mem_vals.mp hx
        have hal2 : a ∈ lowPart s.heap v l ++ s.heap.length :: highPart s.heap v l := by
          have hal3 : a ∈ lowPart s.heap v l ++ highPart s.heap v l := by
            rw [hsplitl]
            exact hal
          rcases List.mem_append.mp hal3 with h1 | h1
          · exact List.mem_append_left _ h1
          · exact List.mem_append_right _ (List.mem_cons_of_mem _ h1)
        refine mem_vals.mpr ⟨a, hal2, ?_⟩
        rw [hvold a (hmemlt a hal)]
        exact hav
      · refine mem_vals.mpr ⟨s.heap.length, ?_, hvnew⟩
        exact List.mem_append_right _ (List.mem_cons_self _ _)

/-- Folding `insert` over a sequence from any well-formed start: the
result is well-formed with the same sentinel and holds the old members
plus the sequence's elements. -/
theorem foldl_insert_ok {hd : Nat} :
    ∀ (S : List T) (s : SkipList T) (l : List Nat), WF s hd l →
      ∃ s2 l2,
        S.foldl (fun acc v => acc.bind (fun s => s.insert v)) (some s) = some s2 ∧
        WF s2 hd l2 ∧
        (∀ x, x ∈ vals s2.heap l2 ↔ x ∈ vals s.heap l ∨ x ∈ S) := by
  intro S
  induction S with
  | nil =>
    intro s l hwf
    refine ⟨s, l, rfl, hwf, fun x => ?_⟩
    simp
  | cons v S ih =>
    intro s l hwf
    obtain ⟨s1, l1, hrun1, hwf1, hmem1⟩ := insert_mem v hwf
    obtain ⟨s2, l2, hrun2, hwf2, hmem2⟩ := ih s1 l1 hwf1
    refine ⟨s2, l2, ?_, hwf2, ?_⟩
    · rw [List.foldl_cons]
      show S.foldl _ ((some s).bind (fun s => s.insert v)) = some s2
      rw [Option.some_bind, hrun1]
      exact hrun2
    · intro x
      rw [hmem2 x, hmem1 x]
      constructor
      · rintro ((h | rfl) | h)
        · exact Or.inl h
        · exact Or.inr (List.mem_cons_self _ _)
        · exact Or.inr (List.mem_cons_of_mem _ h)
      · rintro (h | h)
        · exact Or.inl (Or.inl h)
        · rcases List.mem_cons.mp h with rfl | h2
          · exact Or.inl (Or.inr rfl)
          · exact Or.inr h2

/-- Building a set by inserting a sequence into a fresh set: the result
is well-formed and its members are exactly the sequence's elements. -/
theorem buildFrom_ok (seed : List Bool) (S : List T) :
    ∃ s l, buildFrom seed S = some s ∧ WF s 0 l ∧
      (∀ x, x ∈ vals s.heap l ↔ x ∈ S) := by
  obtain ⟨s2, l2, hrun, hwf2, hmem⟩ :=
    foldl_insert_ok S (SkipList.init seed) [] (init_wf seed)
  refine ⟨s2, l2, hrun, hwf2, fun x => ?_⟩
  rw [hmem x]
  simp [vals]

/-- `erase` in terms of membership: it succeeds, preserves
well-formedness with the same sentinel, reports presence, and the members
afterwards are the old members minus the value. -/
theorem erase_mem {s : SkipList T} {hd : Nat} {l : List Nat} (v : T) (hwf : WF s hd l) :
    ∃ r s2 l2, s.erase v = some (r, s2) ∧ WF s2 hd l2 ∧
      (r = true ↔ v ∈ vals s.heap l) ∧
      (r = false → s2 = s) ∧
      (r = true → s2.size_ + 1 = s.size_) ∧
      (∀ x, x ∈ vals s2.heap l2 ↔ x ∈ vals s.heap l ∧ x ≠ v) := by
  obtain ⟨r, s2, hrun, hcase⟩ := erase_ok v hwf
  rcases hcase with ⟨hv, hr, hs⟩ |
    ⟨hv, hr, t, hh, htv, hwf2, hhead, hlen, hsz, hvalf, hnodeT⟩
  · rw [hr, hs] at hrun
    refine ⟨false, s, l, hrun, hwf, ?_, fun _ => rfl, ?_, ?_⟩
    · constructor
      · intro hcon
        cases hcon
      · intro hmem
        exact absurd hmem hv
    · intro hcon
      cases hcon
    · intro x
      constructor
      · intro hx
        exact ⟨hx, fun hcon => hv (hcon ▸ hx)⟩
      · exact fun hx => hx.1
  · obtain ⟨ys, hys⟩ := List.head?_eq_some_iff.mp hh
    have htail : (highPart s.heap v l).tail = ys := by
      rw [hys]
      rfl
    have hsplitl : lowPart s.heap v l ++ highPart s.heap v l = l := hwf.low_high v
    have hlold : l = lowPart s.heap v l ++ t :: ys := by
      conv_lhs => rw [← hsplitl]
      rw [hys]
    have hvnd : (vals s.heap l).Nodup := vals_nodup hwf
    have hvl : vals s.heap l =
        vals s.heap (lowPart s.heap v l) ++ v :: vals s.heap ys := by
      conv_lhs => rw [hlold]
      rw [vals_append, vals_cons, htv]
    have hvm : v ∉ vals s.heap (lowPart s.heap v l) ++ vals s.heap ys := by
      rw [hvl, List.nodup_middle, List.nodup_cons] at hvnd
      exact hvnd.1
    have hveq : ∀ x, x ∈ vals s2.heap (lowPart s.heap v l ++ ys) ↔
        x ∈ vals s.heap (lowPart s.heap v l ++ ys) := by
      intro x
      constructor
      · intro hx
        obtain ⟨a, ha, hav⟩ := mem_vals.mp hx
        exact mem_vals.mpr ⟨a, ha, by rw [← hvalf a]; exact hav⟩
      · intro hx
        obtain ⟨a, ha, hav⟩ := mem_vals.mp hx
        exact mem_vals.mpr ⟨a, ha, by rw [hvalf a]; exact hav⟩
    have hwf2b : WF s2 hd (lowPart s.heap v l ++ ys) := by
      rw [htail] at hwf2
      exact hwf2
    have hlpos : 1 ≤ l.length := by
      rw [hlold, List.length_append, List.length_cons]
      omega
    rw [hr] at hrun
    refine ⟨true, s2, lowPart s.heap v l ++ ys, hrun, hwf2b,
      ⟨fun _ => hv, fun _ => rfl⟩, ?_, ?_, ?_⟩
    · intro hcon
      cases hcon
    · intro _
      rw [hsz, hwf.size_eq]
      omega
    · intro x
      rw [hveq x]
      constructor
      · intro hx
        have hx2 : x ∈ vals s.heap (lowPart s.heap v l) ++ vals s.heap ys := by
          rw [← vals_append]
          exact hx
        constructor
        · rw [hvl]
          rcases List.mem_append.mp hx2 with h1 | h1
          · exact List.mem_append_left _ h1
          · exact List.mem_append_right _ (List.mem_cons_of_mem _ h1)
        · intro hcon
          rw [hcon] at hx2
          exact hvm hx2
      · rintro ⟨hx, hxv⟩
        rw [hvl] at hx
        rw [vals_append]
        rcases List.mem_append.mp hx with h1 | h1
        · exact List.mem_append_left _ h1
        · rcases List.mem_cons.mp h1 with rfl | h2
          · exact absurd rfl hxv
          · exact List.mem_append_right _ h2

/-- One public mutating operation of the interface. -/
inductive Op (T : Type) where
  | ins (v : T)
  | del (v : T)
  | clr

/-- Apply one operation: `insert`, `erase` (returned flag discarded), or
`clear`. -/
def applyOp (s : SkipList T) : Op T → Option (SkipList T)
  | .ins v => s.insert v
  | .del v => (s.erase v).map Prod.snd
  | .clr => pure s.clear

/-- Run a sequence of public operations on a freshly constructed set. -/
def runOps (seed : List Bool) (ops : List (Op T)) : Option (SkipList T) :=
  ops.foldl (fun acc op => acc.bind (fun s => applyOp s op)) (pure (SkipList.init seed))

/-- Every public mutating operation on a well-formed state succeeds and
leaves a well-formed state. -/
theorem applyOp_wf {s : SkipList T} {hd : Nat} {l : List Nat} (op : Op T)
    (hwf : WF s hd l) :
    ∃ s2 hd2 l2, applyOp s op = some s2 ∧ WF s2 hd2 l2 := by
  cases op with
  | ins v =>
    obtain ⟨s2, l2, hrun, hwf2, -⟩ := insert_mem v hwf
    exact ⟨s2, hd, l2, hrun, hwf2⟩
  | del v =>
    obtain ⟨r, s2, l2, hrun, hwf2, -, -, -, -⟩ := erase_mem v hwf
    refine ⟨s2, hd, l2, ?_, hwf2⟩
    show (s.erase v).map Prod.snd = some s2
    rw [hrun]
    rfl
  | clr => exact ⟨s.clear, s.heap.length, [], rfl, clear_wf s⟩

/-- Every sequence of public operations from a fresh set runs to
completion and every intermediate return state is well-formed. -/
theorem runOps_wf (seed : List Bool) (ops : List (Op T)) :
    ∃ s hd l, runOps seed ops = some s ∧ WF s hd l := by
  suffices hgen : ∀ (ops : List (Op T)) (s : SkipList T) (hd : Nat) (l : List Nat),
      WF s hd l →
      ∃ s2 hd2 l2,
        ops.foldl (fun acc op => acc.bind (fun s => applyOp s op)) (some s) = some s2 ∧
        WF s2 hd2 l2 by
    exact hgen ops (SkipList.init seed) 0 [] (init_wf seed)
  intro ops
  induction ops with
  | nil =>
    intro s hd l hwf
    exact ⟨s, hd, l, rfl, hwf⟩
  | cons op ops ih =>
    intro s hd l hwf
    obtain ⟨s1, hd1, l1, hrun1, hwf1⟩ := applyOp_wf op hwf
    obtain ⟨s2, hd2, l2, hrun2, hwf2⟩ := ih s1 hd1 l1 hwf1
    refine ⟨s2, hd2, l2, ?_, hwf2⟩
    rw [List.foldl_cons]
    show ops.foldl _ ((some s).bind (fun s => applyOp s op)) = some s2
    rw [Option.some_bind, hrun1]
    exact hrun2

/-- `int`: `operator<` and `operator==` are the integer comparisons,
`int{}` is 0. -/
instance : SLElem Int where
  lt a b := decide (a < b)
  beq a b := decide (a = b)
  dflt := 0

instance : LawfulSLElem Int := by
  refine ⟨?_, ?_, ?_, ?_⟩
  · intro a
    show decide (a < a) = false
    simp
  · intro a b c h1 h2
    have h1b : a < b := of_decide_eq_true h1
    have h2b : b < c := of_decide_eq_true h2
    show decide (a < c) = true
    exact decide_eq_true (by omega)
  · intro a b h1 h2
    have h1b : ¬ (a < b) := of_decide_eq_false h1
    have h2b : ¬ (b < a) := of_decide_eq_false h2
    omega
  · intro a b
    show decide (a = b) = true ↔ a = b
    simp

/-- A record ordered by `key` alone but compared for equality on both
fields: the shape of the test suite's `CustomType` (`operator<` on
`value`, `operator==` on `value` and `name`). -/
structure KV where
  key : Nat
  tag : Nat
deriving DecidableEq, Repr

instance : SLElem KV where
  lt a b := decide (a.key < b.key)
  beq a b := decide (a = b)
  dflt := ⟨0, 0⟩

/-- The element equality the specification prescribes: the relation
derived from `operator<` as `!(a<b) && !(b<a)`. -/
def eqDerived {U : Type} [SLElem U] (a b : U) : Bool :=
  !SLElem.lt a b && !SLElem.lt b a

/-- Dereferencing a cursor on an in-range node yields that node's value. -/
theorem deref_some {h : List (Node T)} {a : Nat} (ha : a < h.length) :
    Iterator.deref h ⟨some a⟩ = Except.ok (valAt h a) := by
  show (match h[a]? with
    | some n => Except.ok n.value
    | none => Except.error "dangling node") = Except.ok (valAt h a)
  rw [getElem?_eq_nodeAt ha]
  rfl

/-- C1: after every public operation the level-0 traversal from the head
sentinel visits every member exactly once in strictly ascending order
(any operation sequence from a fresh set reaches a well-formed state
whose full iteration is the duplicate-free, strictly sorted member-value
list), and for every insertion sequence `S` the set built by inserting
`S` iterates exactly the distinct elements of `S` in ascending order. -/
theorem claim_C1 (T : Type) [SLElem T] [LawfulSLElem T] :
    (∀ (seed : List Bool) (ops : List (Op T)),
      ∃ s hd l, runOps seed ops = some s ∧ WF s hd l ∧
        s.toList = some (vals s.heap l) ∧
        (vals s.heap l).Pairwise (fun a b => SLElem.lt a b = true) ∧
        (vals s.heap l).Nodup) ∧
    (∀ (seed : List Bool) (S : List T),
      ∃ s out, buildFrom seed S = some s ∧ s.toList = some out ∧
        out.Pairwise (fun a b => SLElem.lt a b = true) ∧ out.Nodup ∧
        (∀ x, x ∈ out ↔ x ∈ S)) := by
  constructor
  · intro seed ops
    obtain ⟨s, hd, l, hrun, hwf⟩ := runOps_wf seed ops
    exact ⟨s, hd, l, hrun, hwf, toList_ok hwf, sorted_vals hwf, vals_nodup hwf⟩
  · intro seed S
    obtain ⟨s, l, hrun, hwf, hmem⟩ := buildFrom_ok seed S
    exact ⟨s, vals s.heap l, hrun, toList_ok hwf, sorted_vals hwf, vals_nodup hwf, hmem⟩

/-- Witness for C1: the statement instantiated at the concrete element
type `Int`. -/
theorem claim_C1_witness :
    (∀ (seed : List Bool) (ops : List (Op Int)),
      ∃ s hd l, runOps seed ops = some s ∧ WF s hd l ∧
        s.toList = some (vals s.heap l) ∧
        (vals s.heap l).Pairwise (fun a b => SLElem.lt a b = true) ∧
        (vals s.heap l).Nodup) ∧
    (∀ (seed : List Bool) (S : List Int),
      ∃ s out, buildFrom seed S = some s ∧ s.toList = some out ∧
        out.Pairwise (fun a b => SLElem.lt a b = true) ∧ out.Nodup ∧
        (∀ x, x ∈ out ↔ x ∈ S)) :=
  claim_C1 Int

/-- C2: for the set built from any insertion sequence `S` and any `v`,
`find(v)` returns the end cursor exactly when `v` is not an element of
`S`; otherwise the returned cursor dereferences to the value `v`. -/
theorem claim_C2 (T : Type) [SLElem T] [LawfulSLElem T]
    (seed : List Bool) (S : List T) (v : T) :
    ∃ s it, buildFrom seed S = some s ∧ s.find v = some it ∧
      (it = s.endIt ↔ v ∉ S) ∧
      (v ∈ S → Iterator.deref s.heap it = Except.ok v) := by
  obtain ⟨s, l, hrun, hwf, hmem⟩ := buildFrom_ok seed S
  obtain ⟨it, hfind, hcase⟩ := find_ok v hwf
  rcases hcase with ⟨hv, a, rfl, hal, hav⟩ | ⟨hv, rfl⟩
  · refine ⟨s, ⟨some a⟩, hrun, hfind, ?_, ?_⟩
    · constructor
      · intro hcon
        exact Option.noConfusion (congrArg Iterator.current hcon)
      · intro hcon
        exact absurd ((hmem v).mp hv) hcon
    · intro _
      have ha : a < s.heap.length := (hwf.mem_ok a hal).1.1
      rw [deref_some ha, hav]
  · refine ⟨s, ⟨none⟩, hrun, hfind, ⟨fun _ hcon => hv ((hmem v).mpr hcon), fun _ => rfl⟩, ?_⟩
    intro hvS
    exact absurd ((hmem v).mpr hvS) hv

/-- Witness for C2: a concrete build and lookup over `Int`. -/
theorem claim_C2_witness :
    ∃ s it, buildFrom ([] : List Bool) ([2, 3] : List Int) = some s ∧
      s.find 3 = some it ∧
      (it = s.endIt ↔ (3 : Int) ∉ ([2, 3] : List Int)) ∧
      ((3 : Int) ∈ ([2, 3] : List Int) → Iterator.deref s.heap it = Except.ok 3) :=
  claim_C2 Int [] [2, 3] 3

/-- C3: the moved-from set reports size 0 and empty and the destination
holds exactly the prior state, but the source is not the valid, usable
container the specification promises: its sentinel pointer is null, so
`begin`, `insert`, `find` and full iteration all dereference a null
pointer (the crash marker `none`) instead of exhibiting their specified
behaviour. -/
theorem claim_C3 (T : Type) [SLElem T] (s0 : SkipList T) (v : T) :
    (SkipList.moveCtor s0).1 = s0 ∧
    (SkipList.moveCtor s0).2.size = 0 ∧
    (SkipList.moveCtor s0).2.emptyb = true ∧
    (SkipList.moveCtor s0).2.head = none ∧
    (SkipList.moveCtor s0).2.begin = none ∧
    (SkipList.moveCtor s0).2.insert v = none ∧
    (SkipList.moveCtor s0).2.find v = none ∧
    (SkipList.moveCtor s0).2.toList = none ∧
    (SkipList.moveAssign s0 s0).2.insert v = none :=
  ⟨rfl, rfl, rfl, rfl, rfl, rfl, rfl, rfl, rfl⟩

/-- C5: inserting a value already present is a no-op: the returned state
is the very same one, so neither `size()` nor the iteration sequence
changes. -/
theorem claim_C5 (T : Type) [SLElem T] [LawfulSLElem T] {s : SkipList T}
    {hd : Nat} {l : List Nat} (v : T) (hwf : WF s hd l)
    (hv : v ∈ vals s.heap l) :
    s.insert v = some s := by
  obtain ⟨s2, hrun, hcase⟩ := insert_ok v hwf
  rcases hcase with ⟨-, rfl⟩ | ⟨hv2, -⟩
  · exact hrun
  · exact absurd hv hv2

/-- Witness for C5: a one-element set over `Int` that already holds 5. -/
theorem claim_C5_witness :
    ∃ (s : SkipList Int) (l : List Nat), WF s 0 l ∧ (5 : Int) ∈ vals s.heap l ∧
      s.insert 5 = some s := by
  obtain ⟨s1, l1, hrun, hwf1, hmem1⟩ := insert_mem (5 : Int) (init_wf [])
  have hv : (5 : Int) ∈ vals s1.heap l1 := (hmem1 5).mpr (Or.inr rfl)
  exact ⟨s1, l1, hwf1, hv, claim_C5 Int 5 hwf1 hv⟩

/-- C10: the copy-insert and the move-insert overloads are
observationally identical: from the same state and argument they produce
the same result. -/
theorem claim_C10 (T : Type) [SLElem T] (s : SkipList T) (v : T) :
    s.insert v = s.insert_rv v := rfl

/-- C4 (corrected): the membership test of `insert`, `erase` and `find`
is the element type's `operator==`, not the relation `!(a<b) && !(b<a)`
derived from `operator<`: on `KV`, whose `==` distinguishes values that
the derived relation merges, the set keeps derived-equal duplicates and
`find` misses a derived-equal member; on types whose `==` agrees with
equality, the test realised by `find` is exactly `==`. -/
theorem claim_C4 :
    (eqDerived (⟨1, 10⟩ : KV) ⟨1, 20⟩ = true ∧
     SLElem.beq (⟨1, 10⟩ : KV) ⟨1, 20⟩ = false ∧
     (((SkipList.init []).insert (⟨1, 10⟩ : KV)).bind
        (fun s1 => s1.insert ⟨1, 20⟩)).map SkipList.size = some 2 ∧
     ((SkipList.init []).insert (⟨1, 10⟩ : KV)).bind
        (fun s1 => s1.find ⟨1, 20⟩) = some ⟨none⟩) ∧
    (∀ (U : Type) [SLElem U] [LawfulSLElem U] (s : SkipList U) (hd : Nat)
        (l : List Nat) (v : U), WF s hd l →
      ∃ it, s.find v = some it ∧
        (it.current ≠ none ↔ ∃ a ∈ l, SLElem.beq (valAt s.heap a) v = true)) := by
  constructor
  · refine ⟨rfl, rfl, ?_, ?_⟩ <;> rfl
  · intro U _ _ s hd l v hwf
    obtain ⟨it, hfind, hcase⟩ := find_ok v hwf
    rcases hcase with ⟨hv, a, rfl, hal, hav⟩ | ⟨hv, rfl⟩
    · refine ⟨⟨some a⟩, hfind, ?_, ?_⟩
      · intro _
        exact ⟨a, hal, (LawfulSLElem.beq_iff _ _).mpr hav⟩
      · intro _
        simp
    · refine ⟨⟨none⟩, hfind, ?_, ?_⟩
      · intro hcon
        exact absurd rfl hcon
      · rintro ⟨a, hal, hbeq⟩
        exact absurd (mem_vals.mpr ⟨a, hal, (LawfulSLElem.beq_iff _ _).mp hbeq⟩) hv

/-- Counterexample to C4 as originally worded: `⟨1,10⟩` and `⟨1,20⟩` are
equal under the derived relation `!(a<b) && !(b<a)` yet are not treated
as equal — inserting both yields a two-element set. -/
theorem claim_C4_counterexample :
    eqDerived (⟨1, 10⟩ : KV) ⟨1, 20⟩ = true ∧
    (((SkipList.init []).insert (⟨1, 10⟩ : KV)).bind
        (fun s1 => s1.insert ⟨1, 20⟩)).map SkipList.size = some 2 := by
  refine ⟨rfl, ?_⟩
  rfl

/-- C6: `erase(v)` returns `true`, removes exactly the element equal to
`v` and decrements the size by one when `v` is present; it returns
`false` and leaves the state unchanged when `v` is absent. -/
theorem claim_C6 (T : Type) [SLElem T] [LawfulSLElem T] {s : SkipList T}
    {hd : Nat} {l : List Nat} (v : T) (hwf : WF s hd l) :
    ∃ r s2, s.erase v = some (r, s2) ∧
      (r = true ↔ v ∈ vals s.heap l) ∧
      (r = false → s2 = s) ∧
      (r = true → s2.size + 1 = s.size ∧
        ∃ out, s2.toList = some out ∧
          ∀ x, x ∈ out ↔ (x ∈ vals s.heap l ∧ x ≠ v)) := by
  obtain ⟨r, s2, l2, hrun, hwf2, hiff, hfalse, hsize, hmem⟩ := erase_mem v hwf
  exact ⟨r, s2, hrun, hiff, hfalse,
    fun hr => ⟨hsize hr, vals s2.heap l2, toList_ok hwf2, fun x => hmem x⟩⟩

/-- Witness for C6: erasing from the fresh empty `Int` set. -/
theorem claim_C6_witness :
    ∃ r s2, (SkipList.init [] : SkipList Int).erase 7 = some (r, s2) ∧
      (r = true ↔ (7 : Int) ∈ vals (SkipList.init [] : SkipList Int).heap []) ∧
      (r = false → s2 = SkipList.init []) ∧
      (r = true → s2.size + 1 = (SkipList.init [] : SkipList Int).size ∧
        ∃ out, s2.toList = some out ∧
          ∀ x, x ∈ out ↔
            (x ∈ vals (SkipList.init [] : SkipList Int).heap [] ∧ x ≠ 7)) :=
  claim_C6 Int 7 (init_wf [])

/-- C7 (corrected): if the node allocation in `insert` throws, no links
have been rewired, the store, membership and `size_` are exactly as
before — but the call is not fully atomic: `current_level` has already
been raised to the drawn level when that exceeds it, and the random
generator has been consumed. -/
theorem claim_C7 (T : Type) [SLElem T] [LawfulSLElem T] {s : SkipList T}
    {hd : Nat} {l : List Nat} (v : T) (hwf : WF s hd l)
    (hv : v ∉ vals s.heap l) :
    ∃ s2, s.insertAllocFail v = some s2 ∧
      s2.heap = s.heap ∧ s2.head = s.head ∧ s2.size_ = s.size_ ∧
      s2.rng = (random_level 0 s.rng).2 ∧
      s2.current_level = max s.current_level (random_level 0 s.rng).1 := by
  obtain ⟨cfin, updfin, hsl, hulen, habove, hentr, hfwdp, hcfineq, hcok, hlinkf⟩ :=
    search_from_head v hwf
  have hfw0 : fwdAt s.heap cfin 0 = (highPart s.heap v l).head? := by
    rw [linkedSuffix_fwd hlinkf 0 (Nat.zero_le _), levSucc_zero]
  have hread : readFwd s.heap cfin 0 = some ((highPart s.heap v l).head?) := by
    rw [readFwd_eq hcok.1 (by have := hcok.2; omega), hfw0]
  rcases hrl : random_level 0 s.rng with ⟨nl, rng2⟩
  have hmax : (if s.current_level < nl then nl else s.current_level) =
      max s.current_level nl := by
    split <;> omega
  refine ⟨⟨s.heap, s.head, max s.current_level nl, s.size_, rng2⟩,
    ?_, rfl, rfl, rfl, rfl, rfl⟩
  rcases hh : (highPart s.heap v l).head? with _ | a
  · simp only [SkipList.insertAllocFail, Option.bind_eq_bind, hwf.head_eq, hsl, hread,
      Option.some_bind, hh, Option.pure_def, hrl]
    rw [if_true, hmax]
  · have hahigh : a ∈ highPart s.heap v l := by
      obtain ⟨ys, hys⟩ := List.head?_eq_some_iff.mp hh
      rw [hys]
      exact List.mem_cons_self _ _
    have haok : nodeOk s.heap a := (hwf.mem_ok a (high_sub a hahigh)).1
    have hnv : readNode s.heap a = some (nodeAt s.heap a) := readNode_eq haok.1
    have hbeqf : SLElem.beq (nodeAt s.heap a).value v = false := by
      cases hb2 : SLElem.beq (nodeAt s.heap a).value v with
      | false => rfl
      | true => exact absurd ((mem_vals_iff_head_beq hwf v).mpr ⟨a, hh, hb2⟩) hv
    simp only [SkipList.insertAllocFail, Option.bind_eq_bind, hwf.head_eq, hsl, hread,
      Option.some_bind, hh, hnv, hbeqf, Bool.not_false, Option.pure_def, hrl]
    rw [if_true, hmax]

/-- Witness for C7: the fresh `Int` set with one Bernoulli success in the
stream. -/
theorem claim_C7_witness :
    ∃ s2, (SkipList.init [true] : SkipList Int).insertAllocFail 5 = some s2 ∧
      s2.heap = (SkipList.init [true] : SkipList Int).heap ∧
      s2.head = (SkipList.init [true] : SkipList Int).head ∧
      s2.size_ = (SkipList.init [true] : SkipList Int).size_ ∧
      s2.rng = (random_level 0 (SkipList.init [true] : SkipList Int).rng).2 ∧
      s2.current_level = max (SkipList.init [true] : SkipList Int).current_level
        (random_level 0 (SkipList.init [true] : SkipList Int).rng).1 :=
  claim_C7 Int 5 (init_wf [true]) (by simp [vals])

/-- Counterexample to C7 as originally worded: on the fresh set with one
Bernoulli success, a failing allocation leaves the store and size
untouched but `current_level` raised from 0 to 1 — above the maximum
member height, so the set is not exactly as before the call. -/
theorem claim_C7_counterexample :
    ((SkipList.init [true] : SkipList Int).insertAllocFail 5).map SkipList.heap =
      some (SkipList.init [true] : SkipList Int).heap ∧
    ((SkipList.init [true] : SkipList Int).insertAllocFail 5).map SkipList.size_ =
      some 0 ∧
    ((SkipList.init [true] : SkipList Int).insertAllocFail 5).map
      SkipList.current_level = some 1 ∧
    (SkipList.init [true] : SkipList Int).current_level = 0 := by
  refine ⟨?_, ?_, ?_, rfl⟩ <;> rfl

/-- C8: dereferencing (or taking the member pointer of) the end cursor
raises the runtime fault "Dereferencing null iterator" in every state,
and it is the only defined error: on well-formed states `insert`,
`erase`, `find`, `begin` and full iteration all complete without a
fault. -/
theorem claim_C8 (T : Type) [SLElem T] [LawfulSLElem T] :
    (∀ s : SkipList T,
      Iterator.deref s.heap s.endIt = Except.error "Dereferencing null iterator" ∧
      Iterator.arrow s.heap s.endIt = Except.error "Dereferencing null iterator") ∧
    (∀ (s : SkipList T) (hd : Nat) (l : List Nat) (v : T), WF s hd l →
      (∃ s2, s.insert v = some s2) ∧ (∃ p, s.erase v = some p) ∧
      (∃ it, s.find v = some it) ∧ (∃ it0, s.begin = some it0) ∧
      (∃ out, s.toList = some out)) := by
  constructor
  · intro s
    exact ⟨rfl, rfl⟩
  · intro s hd l v hwf
    obtain ⟨s2, hrun, -⟩ := insert_ok v hwf
    obtain ⟨r, s3, hrun2, -⟩ := erase_ok v hwf
    obtain ⟨it, hfind, -⟩ := find_ok v hwf
    refine ⟨⟨s2, hrun⟩, ⟨(r, s3), hrun2⟩, ⟨it, hfind⟩, ?_, ⟨_, toList_ok hwf⟩⟩
    refine ⟨⟨fwdAt s.heap hd 0⟩, ?_⟩
    have hread : readFwd s.heap hd 0 = some (fwdAt s.heap hd 0) :=
      readFwd_eq hwf.head_ok.1 (by have := hwf.head_ok.2; omega)
    simp only [SkipList.begin, Option.bind_eq_bind, hwf.head_eq, Option.some_bind,
      hread, Option.pure_def]

/-- Witness for C8: the statement instantiated at `Int`. -/
theorem claim_C8_witness :
    (∀ s : SkipList Int,
      Iterator.deref s.heap s.endIt = Except.error "Dereferencing null iterator" ∧
      Iterator.arrow s.heap s.endIt = Except.error "Dereferencing null iterator") ∧
    (∀ (s : SkipList Int) (hd : Nat) (l : List Nat) (v : Int), WF s hd l →
      (∃ s2, s.insert v = some s2) ∧ (∃ p, s.erase v = some p) ∧
      (∃ it, s.find v = some it) ∧ (∃ it0, s.begin = some it0) ∧
      (∃ out, s.toList = some out)) :=
  claim_C8 Int

/-- C9: `erase(v)` rewires only predecessor links: the removed node keeps
its value and its forward vector, so a cursor already on it still
dereferences to `v` and still advances onto the node's former level-0
successor, which is a member of the surviving set whenever it exists. -/
theorem claim_C9 (T : Type) [SLElem T] [LawfulSLElem T] {s : SkipList T}
    {hd : Nat} {l : List Nat} (v : T) (hwf : WF s hd l)
    (hv : v ∈ vals s.heap l) :
    ∃ s2 t l2, s.erase v = some (true, s2) ∧ WF s2 hd l2 ∧
      valAt s.heap t = v ∧ t ∈ l ∧
      nodeAt s2.heap t = nodeAt s.heap t ∧
      Iterator.deref s2.heap ⟨some t⟩ = Except.ok v ∧
      Iterator.inc s2.heap ⟨some t⟩ = some ⟨fwdAt s.heap t 0⟩ ∧
      (∀ b, fwdAt s.heap t 0 = some b → b ∈ l2) := by
  obtain ⟨r, s2, hrun, hcase⟩ := erase_ok v hwf
  rcases hcase with ⟨hv2, -, -⟩ |
    ⟨-, hr, t, hh, htv, hwf2, hhead, hlen, hsz, hvalf, hnodeT⟩
  · exact absurd hv hv2
  · subst hr
    obtain ⟨ys, hys⟩ := List.head?_eq_some_iff.mp hh
    have htail : (highPart s.heap v l).tail = ys := by
      rw [hys]
      rfl
    have hsplitl : lowPart s.heap v l ++ highPart s.heap v l = l := hwf.low_high v
    have hlold : l = lowPart s.heap v l ++ t :: ys := by
      conv_lhs => rw [← hsplitl]
      rw [hys]
    have hthigh : t ∈ highPart s.heap v l := by
      rw [hys]
      exact List.mem_cons_self _ _
    have htl : t ∈ l := high_sub t hthigh
    have htok : nodeOk s.heap t := (hwf.mem_ok t htl).1
    have htsplit : hd :: l = (hd :: lowPart s.heap v l) ++ t :: ys := by
      rw [List.cons_append]
      conv_lhs => rw [hlold]
    have htfwd0 : fwdAt s.heap t 0 = ys.head? := by
      rw [linkedSuffix_elim hwf.linked (hd :: lowPart s.heap v l) t ys htsplit 0
        (Nat.zero_le _), levSucc_zero]
    have htlt2 : t < s2.heap.length := by
      rw [hlen]
      exact htok.1
    have hwf2b : WF s2 hd (lowPart s.heap v l ++ ys) := by
      rw [htail] at hwf2
      exact hwf2
    refine ⟨s2, t, lowPart s.heap v l ++ ys, hrun, hwf2b, htv, htl, hnodeT,
      ?_, ?_, ?_⟩
    · rw [deref_some htlt2, hvalf t, htv]
    · show (do
        let n ← readNode s2.heap t
        let link ← n.forward[0]?
        pure (⟨link⟩ : Iterator)) = some ⟨fwdAt s.heap t 0⟩
      rw [readNode_eq htlt2]
      show (do
        let link ← (nodeAt s2.heap t).forward[0]?
        pure (⟨link⟩ : Iterator)) = some ⟨fwdAt s.heap t 0⟩
      have hflen : 0 < (nodeAt s2.heap t).forward.length := by
        rw [hnodeT]
        have := htok.2
        omega
      rw [getElem?_eq_some_getD hflen]
      show some (⟨fwdAt s2.heap t 0⟩ : Iterator) = some ⟨fwdAt s.heap t 0⟩
      rw [fwdAt_congr hnodeT 0]
    · intro b hb
      rw [htfwd0] at hb
      have hbys : b ∈ ys := by
        obtain ⟨zs, hzs⟩ := List.head?_eq_some_iff.mp hb
        rw [hzs]
        exact List.mem_cons_self _ _
      exact List.mem_append_right _ hbys

/-- Witness for C9: erasing 5 from a one-element `Int` set. -/
theorem claim_C9_witness :
    ∃ (s : SkipList Int) (l : List Nat) (s2 : SkipList Int) (t : Nat) (l2 : List Nat),
      WF s 0 l ∧ (5 : Int) ∈ vals s.heap l ∧
      s.erase 5 = some (true, s2) ∧ WF s2 0 l2 ∧
      valAt s.heap t = 5 ∧ t ∈ l ∧
      nodeAt s2.heap t = nodeAt s.heap t ∧
      Iterator.deref s2.heap ⟨some t⟩ = Except.ok 5 ∧
      Iterator.inc s2.heap ⟨some t⟩ = some ⟨fwdAt s.heap t 0⟩ ∧
      (∀ b, fwdAt s.heap t 0 = some b → b ∈ l2) := by
  obtain ⟨s1, l1, hrun, hwf1, hmem1⟩ := insert_mem (5 : Int) (init_wf [])
  have hv : (5 : Int) ∈ vals s1.heap l1 := (hmem1 5).mpr (Or.inr rfl)
  obtain ⟨s2, t, l2, h1, h2, h3, h4, h5, h6, h7, h8⟩ := claim_C9 Int 5 hwf1 hv
  exact ⟨s1, l1, s2, t, l2, hwf1, hv, h1, h2, h3, h4, h5, h6, h7, h8⟩

end SkipListModel
